import Mathlib

/-!
Verification of the multi-object tracking and temporal-aggregation engine of the
Bird-Counting-and-Weight-Estimation repository.

The Python sources are shallowly embedded over exact rational arithmetic:
* `utils.py`            → `calculate_iou`, `calculate_bbox_area`
* `tracker.py`          → `ByteTracker` state, `byteMatch` (`_match`) and `update`
* `video_processor.py`  → `storeTrackInfo` (the per-frame track-recording step)
* `weight_estimator.py` → `calculateWeightIndex`, `estimate_weights`
* `config.py` module constants appear as explicit parameters of the embedded
  functions (`track_thresh`, `track_buffer`, `match_thresh`, `areaFactor`,
  `densityFactor`, `minArea`).

Python runtime errors that the embedded code can actually raise (ValueError from
`list.remove`, AttributeError from calling `tolist` on a plain list) are modelled
with `Except String`; Python dicts (insertion-ordered, unique keys) are modelled
as association lists whose key lists are kept duplicate-free by the stated
invariants.
-/

namespace BirdCount

/-- Axis-aligned pixel box `(x1, y1, x2, y2)`; the repository passes these around
as the first four entries of a detection list (`utils.py`, `tracker.py`). -/
structure Box where
  x1 : ℚ
  y1 : ℚ
  x2 : ℚ
  y2 : ℚ
deriving DecidableEq, Inhabited

/-- `(x2-x1)*(y2-y1)`, from `calculate_bbox_area` in utils.py (lines 52-54). The
same expression is computed inline for `area1`/`area2` in `calculate_iou`. -/
def calculate_bbox_area (bbox : Box) : ℚ :=
  (bbox.x2 - bbox.x1) * (bbox.y2 - bbox.y1)

/-- The clamped intersection area of `calculate_iou` (utils.py lines 39-44):
`max(0, x2-x1) * max(0, y2-y1)` with `x1 = max(x1s)`, `x2 = min(x2s)`, etc. -/
def interArea (a b : Box) : ℚ :=
  max 0 (min a.x2 b.x2 - max a.x1 b.x1) * max 0 (min a.y2 b.y2 - max a.y1 b.y1)

/-- `union = area1 + area2 - intersection` (utils.py line 47). -/
def unionArea (a b : Box) : ℚ :=
  calculate_bbox_area a + calculate_bbox_area b - interArea a b

/-- `calculate_iou` from utils.py lines 37-49: intersection over union, with the
guard `intersection / union if union > 0 else 0`. The source binds the
intermediate quantities with local variables; they are the named definitions
`interArea` and `unionArea` here. -/
def calculate_iou (box1 box2 : Box) : ℚ :=
  if unionArea box1 box2 > 0 then interArea box1 box2 / unionArea box1 box2 else 0

/-- One detection `[x1, y1, x2, y2, confidence]` (detector.py line 59): the
first four entries are the box (`d[:4]`), the fifth the confidence (`d[4]`). -/
structure Det where
  box : Box
  conf : ℚ
deriving DecidableEq, Inhabited

/-- One tracked identity, the per-id dict value built in tracker.py lines 96-102. -/
structure Track where
  box : Box
  confidence : ℚ
  age : ℕ
  hits : ℕ
  start_frame : ℕ
deriving DecidableEq, Inhabited

/-- The mutable state of `ByteTracker` (tracker.py lines 29-35) together with its
construction-time configuration. `tracks` models the Python dict as an
insertion-ordered association list. -/
structure TrackerState where
  track_thresh : ℚ
  track_buffer : ℤ
  match_thresh : ℚ
  tracks : List (ℕ × Track)
  next_id : ℕ
  frame_count : ℕ
deriving DecidableEq, Inhabited

/-- `ByteTracker.__init__` (tracker.py lines 20-35): stores the three thresholds
verbatim — there is no range validation — and initialises empty tracks,
`next_id = 1`, `frame_count = 0`. -/
def ByteTracker.init (track_thresh : ℚ) (track_buffer : ℤ) (match_thresh : ℚ) :
    TrackerState :=
  { track_thresh := track_thresh
    track_buffer := track_buffer
    match_thresh := match_thresh
    tracks := []
    next_id := 1
    frame_count := 0 }

/-- Keys of the track dict in insertion order (`list(tracks.keys())`). -/
def dictKeys (d : List (ℕ × Track)) : List ℕ := d.map Prod.fst

/-- `tracks[track_id]` — defined (and only used) for keys present in the dict. -/
def dictLookup (d : List (ℕ × Track)) (k : ℕ) : Track :=
  (((d.find? (fun p => p.1 == k)).map Prod.snd)).getD default

/-- In-place mutation `tracks[k] = f tracks[k]` of a Python dict: the entry keeps
its position, all other entries are untouched. -/
def dictModify (d : List (ℕ × Track)) (k : ℕ) (f : Track → Track) :
    List (ℕ × Track) :=
  d.map (fun p => if p.1 = k then (p.1, f p.2) else p)

/-- IoU between candidate detection `i` and the track with id `tid`, as the IoU
matrix of `_match` stores it (tracker.py lines 137-145): `calculate_iou` of
`detections[i][:4]` and `tracks[tid]['box']`. -/
def trackIoU (dets : List Det) (d : List (ℕ × Track)) (i tid : ℕ) : ℚ :=
  calculate_iou (dets.getD i default).box (dictLookup d tid).box

/-- The inner double loop of `_match` (tracker.py lines 152-164): scan all
still-unmatched (detection, track) pairs in iteration order — detections outer
(ascending index), tracks inner — keeping the best `(max_iou, max_det,
max_track)`. `max_iou` starts at `0` and the index sentinels at `-1`; a pair
replaces the current best only on a strictly larger IoU, so the first
encountered maximum wins. -/
def scanMax (iou : ℕ → ℕ → ℚ) (ud ut : List ℕ) : ℚ × ℤ × ℤ :=
  ud.foldl
    (fun acc i =>
      ut.foldl
        (fun acc2 tid =>
          if iou i tid > acc2.1 then (iou i tid, (i : ℤ), (tid : ℤ)) else acc2)
        acc)
    (0, -1, -1)

/-- Python `list.remove(v)`: delete the first occurrence of `v`, raising
ValueError when `v` is not in the list (tracker.py lines 170-171 call it with
the possibly-sentinel `max_det`/`max_track`). -/
def removeE (xs : List ℕ) (v : ℤ) : Except String (List ℕ) :=
  match v with
  | Int.ofNat n => if n ∈ xs then .ok (xs.erase n) else .error "ValueError: list.remove(x): x not in list"
  | Int.negSucc _ => .error "ValueError: list.remove(x): x not in list"

/-- The greedy `while` loop of `_match` (tracker.py lines 152-171), with fuel
bounding the iteration count; every iteration removes one element from the
unmatched-detections list, so fuel `ud.length` never runs out. -/
def matchLoop (iou : ℕ → ℕ → ℚ) (thresh : ℚ) :
    ℕ → List (ℕ × ℕ) → List ℕ → List ℕ →
    Except String (List (ℕ × ℕ) × List ℕ × List ℕ)
  | 0, matched, ud, ut => .ok (matched, ud, ut)
  | fuel + 1, matched, ud, ut =>
    if 0 < ud.length ∧ 0 < ut.length then
      let m := scanMax iou ud ut
      if m.1 < thresh then .ok (matched, ud, ut)
      else
        match removeE ud m.2.1, removeE ut m.2.2 with
        | .ok ud2, .ok ut2 =>
            matchLoop iou thresh fuel (matched ++ [(m.2.1.toNat, m.2.2.toNat)]) ud2 ut2
        | .error e, _ => .error e
        | .ok _, .error e => .error e
    else .ok (matched, ud, ut)

/-- `ByteTracker._match` (tracker.py lines 124-173): if either side is empty,
return no matches and everything unmatched; otherwise run the greedy loop over
detection indices `range(len(detections))` and the track ids in dict order. -/
def byteMatch (dets : List Det) (d : List (ℕ × Track)) (thresh : ℚ) :
    Except String (List (ℕ × ℕ) × List ℕ × List ℕ) :=
  if dets.length = 0 ∨ d.length = 0 then
    .ok ([], List.range dets.length, dictKeys d)
  else
    matchLoop (trackIoU dets d) thresh dets.length [] (List.range dets.length) (dictKeys d)

/-- Modelled from the spec (section 4.2, greedy matching algorithm): one scan
for the single highest remaining IoU among the still-unmatched pairs, same
iteration order and first-encountered-maximum tie-break, but with no index
sentinels: the scan of a nonempty pair list always names a genuine pair. Used
only to compare `byteMatch` against the specification's wording. -/
def specScan (iou : ℕ → ℕ → ℚ) (ud ut : List ℕ) : Option (ℕ × ℕ × ℚ) :=
  ud.foldl
    (fun acc i =>
      ut.foldl
        (fun acc2 tid =>
          match acc2 with
          | none => some (i, tid, iou i tid)
          | some b => if iou i tid > b.2.2 then some (i, tid, iou i tid) else some b)
        acc)
    none

/-- Modelled from the spec (section 4.2): repeatedly take the highest remaining
IoU pair; stop as soon as that maximum is below the threshold (or a side is
exhausted); otherwise accept the pair and remove both members. The fuel only
bounds the iteration count; each accepted pair removes one detection, so fuel
`ud.length` suffices. -/
def specGreedy (iou : ℕ → ℕ → ℚ) (thresh : ℚ) :
    ℕ → List (ℕ × ℕ) → List ℕ → List ℕ → List (ℕ × ℕ) × List ℕ × List ℕ
  | 0, matched, ud, ut => (matched, ud, ut)
  | fuel + 1, matched, ud, ut =>
    match specScan iou ud ut with
    | none => (matched, ud, ut)
    | some (i, tid, q) =>
      if q < thresh then (matched, ud, ut)
      else specGreedy iou thresh fuel (matched ++ [(i, tid)]) (ud.erase i) (ut.erase tid)

/-- Modelled from the spec (section 4.2): the whole greedy matching pass. -/
def specMatch (dets : List Det) (d : List (ℕ × Track)) (thresh : ℚ) :
    List (ℕ × ℕ) × List ℕ × List ℕ :=
  if dets.length = 0 ∨ d.length = 0 then
    ([], List.range dets.length, dictKeys d)
  else
    specGreedy (trackIoU dets d) thresh dets.length [] (List.range dets.length) (dictKeys d)

/-- One comparison of the source's best-pair scan (the body of the inner loop in
`scanMax`), named for the proofs below; definitionally equal to the lambda in
`scanMax`. -/
def scanStep (iou : ℕ → ℕ → ℚ) (i : ℕ) (acc2 : ℚ × ℤ × ℤ) (tid : ℕ) : ℚ × ℤ × ℤ :=
  if iou i tid > acc2.1 then (iou i tid, (i : ℤ), (tid : ℤ)) else acc2

/-- One comparison of the specification's best-pair scan (the body of the inner
loop in `specScan`), named for the proofs below. -/
def specStep (iou : ℕ → ℕ → ℚ) (i : ℕ) (acc2 : Option (ℕ × ℕ × ℚ)) (tid : ℕ) :
    Option (ℕ × ℕ × ℚ) :=
  match acc2 with
  | none => some (i, tid, iou i tid)
  | some b => if iou i tid > b.2.2 then some (i, tid, iou i tid) else some b

/-- Invariant coupling the source's sentinel-based best-pair scan with the
specification's scan: either the source accumulator is still the sentinel
`(0, -1, -1)` and the specification's best-so-far (if any) has IoU `≤ 0`, or
both name the same genuine pair, with positive IoU, drawn from the scanned
lists. -/
def ScanRel (iou : ℕ → ℕ → ℚ) (ud ut : List ℕ) (cacc : ℚ × ℤ × ℤ)
    (sacc : Option (ℕ × ℕ × ℚ)) : Prop :=
  (cacc = (0, -1, -1) ∧ (sacc = none ∨ ∃ p, sacc = some p ∧ p.2.2 ≤ 0)) ∨
  (∃ i t, i ∈ ud ∧ t ∈ ut ∧ 0 < iou i t ∧
    cacc = (iou i t, (i : ℤ), (t : ℤ)) ∧ sacc = some (i, t, iou i t))

/-- Applying a list of `(det_idx, track_id)` matches to the track dict
(tracker.py lines 70-75 and 84-89): overwrite box and confidence from the
detection, reset `age` to `0`, increment `hits`. -/
def applyMatches (dets : List Det) (m : List (ℕ × ℕ)) (d : List (ℕ × Track)) :
    List (ℕ × Track) :=
  m.foldl
    (fun acc p =>
      let det := dets.getD p.1 default
      dictModify acc p.2
        (fun t => { t with box := det.box, confidence := det.conf, age := 0, hits := t.hits + 1 }))
    d

/-- Aging every track whose id is in the given list by one frame (tracker.py
lines 106-107). -/
def ageTracks (l : List ℕ) (d : List (ℕ × Track)) : List (ℕ × Track) :=
  l.foldl (fun acc tid => dictModify acc tid (fun t => { t with age := t.age + 1 })) d

/-- Aging every track by one frame — the empty-detections branch iterates over
the whole dict (tracker.py lines 51-53). -/
def ageAll (d : List (ℕ × Track)) : List (ℕ × Track) :=
  d.map (fun p => (p.1, { p.2 with age := p.2.age + 1 }))

/-- Deleting every track whose age exceeds the buffer (tracker.py lines 54-57
and 110-113; both sites first collect the dead ids, then delete them). -/
def removeDead (buffer : ℤ) (d : List (ℕ × Track)) : List (ℕ × Track) :=
  d.filter (fun p => ¬ ((p.2.age : ℤ) > buffer))

/-- The result loop (tracker.py lines 116-122): report `(box, id)` for every
track with `age == 0`, in dict order. -/
def activeResults (d : List (ℕ × Track)) : List (Box × ℕ) :=
  d.filterMap (fun p => if p.2.age = 0 then some (p.2.box, p.1) else none)

/-- The second matching pass (tracker.py lines 77-91): only when there are
low-confidence detections and tracks left unmatched by pass 1, match the low
detections against the dict rebuilt from the still-unmatched track ids (reading
current values from the updated track store); its matches are applied like pass
1 and its remaining unmatched tracks replace the unmatched list. -/
def secondPass (low : List Det) (tracks1 : List (ℕ × Track))
    (unmatchedTracks : List ℕ) (thresh : ℚ) :
    Except String (List (ℕ × ℕ) × List ℕ) :=
  if 0 < low.length ∧ 0 < unmatchedTracks.length then
    match byteMatch low (unmatchedTracks.map (fun tid => (tid, dictLookup tracks1 tid)))
            thresh with
    | .error e => .error e
    | .ok (ml, _, remaining) => .ok (ml, remaining)
  else .ok ([], unmatchedTracks)

/-- Creating one new track per unmatched high-confidence detection index
(tracker.py lines 94-103): each gets the next fresh id, the detection's box and
confidence, `age = 0`, `hits = 1`, `start_frame` = the current frame count; the
entries are appended to the dict in loop order. Returns the new entries and the
final `next_id`. -/
def createTracks (high : List Det) (fc : ℕ) :
    List ℕ → ℕ → List (ℕ × Track) × ℕ
  | [], nid => ([], nid)
  | di :: rest, nid =>
    let det := high.getD di default
    let r := createTracks high fc rest (nid + 1)
    ((nid, ⟨det.box, det.conf, 0, 1, fc⟩) :: r.1, r.2)

/-- `ByteTracker.update` (tracker.py lines 37-122). Steps, in source order:
increment `frame_count`; if there are no detections, age every track, drop the
dead ones and return the empty list; otherwise split the detections at
`track_thresh`, run the first greedy pass over all tracks and apply its
matches, run the second pass matching low-confidence detections against the
still-unmatched tracks and apply those matches, create new tracks for the
high-confidence detections left unmatched by the first pass, age the tracks
still unmatched after both passes, drop tracks whose age exceeds
`track_buffer`, and report the tracks with `age == 0`. -/
def update (s : TrackerState) (detections : List Det) :
    Except String (List (Box × ℕ) × TrackerState) :=
  let fc := s.frame_count + 1
  if detections.length = 0 then
    .ok ([], { s with frame_count := fc,
                      tracks := removeDead s.track_buffer (ageAll s.tracks) })
  else
    let high := detections.filter (fun d => s.track_thresh ≤ d.conf)
    let low := detections.filter (fun d => d.conf < s.track_thresh)
    match byteMatch high s.tracks s.match_thresh with
    | .error e => .error e
    | .ok (matched, unmatchedDets, unmatchedTracks) =>
      let tracks1 := applyMatches high matched s.tracks
      match secondPass low tracks1 unmatchedTracks s.match_thresh with
      | .error e => .error e
      | .ok (matchedLow, unmatchedTracks2) =>
        let tracks2 := applyMatches low matchedLow tracks1
        let created := createTracks high fc unmatchedDets s.next_id
        let tracks3 := tracks2 ++ created.1
        let tracks4 := ageTracks unmatchedTracks2 tracks3
        let tracks5 := removeDead s.track_buffer tracks4
        .ok (activeResults tracks5,
             { s with frame_count := fc, tracks := tracks5, next_id := created.2 })

/-- Feeding a sequence of per-frame detection lists to one tracker instance in
order, as the pipeline loop of `VideoProcessor.process_video` does
(video_processor.py lines 83-131); collects the per-frame active-track lists. -/
def runUpdates (s : TrackerState) :
    List (List Det) → Except String (List (List (Box × ℕ)) × TrackerState)
  | [] => .ok ([], s)
  | ds :: rest =>
    match update s ds with
    | .error e => .error e
    | .ok (r, s1) =>
      match runUpdates s1 rest with
      | .error e => .error e
      | .ok (rs, s2) => .ok (r :: rs, s2)

/-- The tracker's dict invariant: Python dict keys are unique, and every live id
was assigned from the `next_id` counter, so is below it. Holds for the freshly
constructed tracker and is preserved by `update`. -/
def TrackerInv (s : TrackerState) : Prop :=
  (dictKeys s.tracks).Nodup ∧ ∀ k ∈ dictKeys s.tracks, k < s.next_id

instance (s : TrackerState) : Decidable (TrackerInv s) := by
  unfold TrackerInv; infer_instance

/-- One identity's observation history as handed to the estimator
(video_processor.py lines 74-78: parallel lists of boxes and confidences). -/
structure TrackData where
  boxes : List Box
  confidences : List ℚ
deriving DecidableEq, Inhabited

/-- One per-bird record of `estimate_weights` (weight_estimator.py lines 54-59). -/
structure BirdWeight where
  track_id : ℕ
  weight_index : ℚ
  confidence : ℚ
  num_observations : ℕ
deriving DecidableEq, Inhabited

/-- The aggregate statistics of `estimate_weights` (weight_estimator.py lines
64-81) — the fields the verified claims exercise (mean, min, max, count);
std and median are built the same way and are not needed here. -/
structure Aggregate where
  mean_weight_index : ℚ
  min_weight_index : ℚ
  max_weight_index : ℚ
  total_birds : ℕ
deriving DecidableEq, Inhabited

/-- `WeightEstimator._calculate_weight_index` (weight_estimator.py lines
106-147), with the configuration constants `WEIGHT_AREA_FACTOR`,
`WEIGHT_DENSITY_FACTOR`, `MIN_BOX_AREA` (config.py: 0.15, 1.0, 100) passed
explicitly, and the float `np.exp(-0.01 * k)` decay abstracted as the sequence
`decay k` (its exact real values are irrational; every theorem below holds for
an arbitrary strictly positive decay sequence, hence for the exponential).
Faithfully: areas of all boxes; keep only observations with area strictly
greater than `minArea` (`areas > MIN_BOX_AREA`, line 124) — note `confidences`
is reassigned to the filtered array (line 129); blending weights
`conf * decay k` over the surviving list, normalised by their sum;
`np.average(areas, weights)` is the weight-weighted mean; the confidence
averages `min(1, len(boxes)/30)` with `np.mean` of the (filtered!)
confidences. -/
def calculateWeightIndex (decay : ℕ → ℚ) (areaFactor densityFactor minArea : ℚ)
    (boxes : List Box) (confidences : List ℚ) : ℚ × ℚ :=
  let areas := boxes.map calculate_bbox_area
  let valid := (areas.zip confidences).filter (fun p => p.1 > minArea)
  if valid.length = 0 then (0, 0)
  else
    let fAreas := valid.map Prod.fst
    let fConfs := valid.map Prod.snd
    let weights := fConfs.enum.map (fun p => p.2 * decay p.1)
    let wSum := weights.sum
    let wNorm := weights.map (fun w => w / wSum)
    let meanArea := ((fAreas.zip wNorm).map (fun p => p.1 * p.2)).sum / wNorm.sum
    let weightIndex := meanArea * areaFactor * densityFactor
    let obsConf := min 1 ((boxes.length : ℚ) / 30)
    let detConf := fConfs.sum / (fConfs.length : ℚ)
    (weightIndex, (obsConf + detConf) / 2)

/-- The confidences of the observations surviving the area filter, in temporal
order — spelled out to state what `_calculate_weight_index` actually averages. -/
def survivingConfs (minArea : ℚ) (boxes : List Box) (confidences : List ℚ) :
    List ℚ :=
  (((boxes.map calculate_bbox_area).zip confidences).filter (fun p => p.1 > minArea)).map
    Prod.snd

/-- `WeightEstimator.estimate_weights` (weight_estimator.py lines 28-104):
skip identities with no observations; keep a per-bird record exactly when the
weight index is positive; aggregate mean/min/max/count over the kept indices,
all-zero when nothing qualifies. -/
def estimate_weights (decay : ℕ → ℚ) (areaFactor densityFactor minArea : ℚ)
    (tracks : List (ℕ × TrackData)) : List BirdWeight × Aggregate :=
  let per_bird := tracks.filterMap
    (fun p =>
      if p.2.boxes.length = 0 then none
      else
        let wc := calculateWeightIndex decay areaFactor densityFactor minArea
                    p.2.boxes p.2.confidences
        if wc.1 > 0 then some ⟨p.1, wc.1, wc.2, p.2.boxes.length⟩ else none)
  let idxs := per_bird.map BirdWeight.weight_index
  let aggregate :=
    if 0 < idxs.length then
      { mean_weight_index := idxs.sum / (idxs.length : ℚ)
        min_weight_index := (idxs.min?).getD 0
        max_weight_index := (idxs.max?).getD 0
        total_birds := idxs.length }
    else
      { mean_weight_index := 0, min_weight_index := 0, max_weight_index := 0
        total_birds := 0 }
  (per_bird, aggregate)

/-- A Python runtime value as far as the aggregator's recording step needs: the
tracker returns plain Python lists (tracker.py line 120), while `tolist` is a
method of numpy arrays only. -/
inductive PyVal where
  | pylist (xs : List ℚ)
  | ndarray (xs : List ℚ)
deriving DecidableEq

/-- `v.tolist()`: defined on numpy arrays; on a plain Python list it raises
AttributeError. -/
def PyVal.tolist : PyVal → Except String (List ℚ)
  | .ndarray xs => .ok xs
  | .pylist _ => .error "AttributeError: list object has no attribute tolist"

/-- `np.allclose(a, b, atol)` on equal-length 1-d arrays: elementwise
`|a - b| <= atol + rtol * |b|` with numpy's default `rtol = 1e-05`. -/
def allclose (a b : List ℚ) (atol : ℚ) : Bool :=
  a.length == b.length &&
    (a.zip b).all (fun p => |p.1 - p.2| ≤ atol + (1 / 100000) * |p.2|)

/-- The confidence-recovery scan of `process_video` (video_processor.py lines
113-120): `conf` starts at `0.0` and becomes `det[4]` for the first detection
whose box is `np.allclose` to the track's box with `atol = 1.0`. -/
def recoverConf (detections : List (List ℚ)) (box : List ℚ) : ℚ :=
  match detections.find? (fun det => allclose (det.take 4) box 1) with
  | some det => det.getD 4 0
  | none => 0

/-- The per-frame track-recording step of `process_video` (video_processor.py
lines 108-124): for each returned track (a plain Python list
`[x1, y1, x2, y2, track_id]`), take `int(track[4])` as the id and
`track[:4].tolist()` as the box — but `track[:4]` is a plain list slice, so the
`tolist` call raises AttributeError. The recovered `(id, box, confidence)`
triples would be appended to the per-identity histories. -/
def storeTrackInfo (detections : List (List ℚ)) :
    List (List ℚ) → Except String (List (ℚ × List ℚ × ℚ))
  | [] => .ok []
  | track :: rest =>
    let trackId := track.getD 4 0
    match PyVal.tolist (PyVal.pylist (track.take 4)) with
    | .error e => .error e
    | .ok box =>
      let conf := recoverConf detections box
      match storeTrackInfo detections rest with
      | .error e => .error e
      | .ok rs => .ok ((trackId, box, conf) :: rs)

/-- The configuration stored by `WeightEstimator.__init__` (weight_estimator.py
lines 22-26): the two factors are copied from config.py with no validation. -/
structure EstimatorState where
  area_to_weight_factor : ℚ
  density_factor : ℚ
deriving DecidableEq, Inhabited

/-- `WeightEstimator.__init__`: stores the factors verbatim, no validation. -/
def WeightEstimator.init (areaFactor densityFactor : ℚ) : EstimatorState :=
  ⟨areaFactor, densityFactor⟩

/-! ### Track-dict lemmas -/

theorem mem_dictKeys (d : List (ℕ × Track)) (i : ℕ) :
    i ∈ dictKeys d ↔ ∃ t, (i, t) ∈ d := by
  simp only [dictKeys, List.mem_map]
  constructor
  · rintro ⟨p, hp, hpe⟩
    exact ⟨p.2, by rwa [show (i, p.2) = p from Prod.ext hpe.symm rfl]⟩
  · rintro ⟨t, ht⟩
    exact ⟨(i, t), ht, rfl⟩

theorem dict_unique (d : List (ℕ × Track)) (h : (dictKeys d).Nodup) (i : ℕ)
    (a b : Track) (ha : (i, a) ∈ d) (hb : (i, b) ∈ d) : a = b := by
  induction d with
  | nil => exact absurd ha (List.not_mem_nil _)
  | cons p rest ih =>
    simp only [dictKeys, List.map_cons, List.nodup_cons] at h
    rcases List.mem_cons.mp ha with ha | ha <;> rcases List.mem_cons.mp hb with hb | hb
    · rw [← hb] at ha; exact (Prod.mk.injEq _ _ _ _ ▸ ha).2
    · have hip : i = p.1 := by rw [← ha]
      have hmem : i ∈ dictKeys rest := (mem_dictKeys rest i).mpr ⟨b, hb⟩
      rw [hip] at hmem
      exact absurd hmem (by simpa [dictKeys] using h.1)
    · have hip : i = p.1 := by rw [← hb]
      have hmem : i ∈ dictKeys rest := (mem_dictKeys rest i).mpr ⟨a, ha⟩
      rw [hip] at hmem
      exact absurd hmem (by simpa [dictKeys] using h.1)
    · exact ih h.2 ha hb

theorem dictKeys_dictModify (d : List (ℕ × Track)) (k : ℕ) (f : Track → Track) :
    dictKeys (dictModify d k f) = dictKeys d := by
  simp only [dictKeys, dictModify, List.map_map]
  induction d with
  | nil => rfl
  | cons p rest ih =>
    simp only [List.map_cons] at *
    rw [ih]
    by_cases hp : p.1 = k <;> simp [hp, Function.comp]

theorem dictModify_mem_ne (d : List (ℕ × Track)) (k : ℕ) (f : Track → Track)
    (i : ℕ) (t : Track) (hik : i ≠ k) :
    (i, t) ∈ dictModify d k f ↔ (i, t) ∈ d := by
  simp only [dictModify, List.mem_map]
  constructor
  · rintro ⟨p, hp, hpe⟩
    by_cases hpk : p.1 = k
    · rw [if_pos hpk] at hpe
      exact absurd ((Prod.mk.injEq _ _ _ _ ▸ hpe).1 ▸ hpk) hik
    · rw [if_neg hpk] at hpe
      exact hpe ▸ hp
  · intro h
    refine ⟨(i, t), h, ?_⟩
    rw [if_neg (by simpa using hik)]

theorem dictModify_mem_self (d : List (ℕ × Track)) (k : ℕ) (f : Track → Track)
    (t : Track) (h : (k, t) ∈ d) : (k, f t) ∈ dictModify d k f := by
  simp only [dictModify, List.mem_map]
  exact ⟨(k, t), h, by simp⟩

theorem dictModify_mem_elim (d : List (ℕ × Track)) (k : ℕ) (f : Track → Track)
    (i : ℕ) (t : Track) (h : (i, t) ∈ dictModify d k f) :
    (i, t) ∈ d ∨ ∃ u, (i, u) ∈ d ∧ i = k ∧ t = f u := by
  simp only [dictModify, List.mem_map] at h
  obtain ⟨p, hp, hpe⟩ := h
  by_cases hpk : p.1 = k
  · rw [if_pos hpk] at hpe
    obtain ⟨h1, h2⟩ := Prod.mk.injEq _ _ _ _ ▸ hpe
    exact Or.inr ⟨p.2, by rwa [show (i, p.2) = p from Prod.ext h1.symm rfl], h1 ▸ hpk, h2.symm⟩
  · rw [if_neg hpk] at hpe
    exact Or.inl (hpe ▸ hp)

/-! ### Update-step lemmas -/

theorem applyMatches_keys (dets : List Det) (m : List (ℕ × ℕ)) :
    ∀ d, dictKeys (applyMatches dets m d) = dictKeys d := by
  induction m with
  | nil => intro d; rfl
  | cons p rest ih =>
    intro d
    unfold applyMatches at *
    rw [List.foldl_cons]
    rw [ih]
    exact dictKeys_dictModify d p.2 _

theorem applyMatches_mem_notin (dets : List Det) (m : List (ℕ × ℕ)) :
    ∀ d i t, i ∉ m.map Prod.snd →
    ((i, t) ∈ applyMatches dets m d ↔ (i, t) ∈ d) := by
  induction m with
  | nil => intro d i t _; rfl
  | cons p rest ih =>
    intro d i t h
    simp only [List.map_cons, List.mem_cons] at h
    push_neg at h
    unfold applyMatches at *
    rw [List.foldl_cons]
    rw [ih _ i t h.2]
    exact dictModify_mem_ne d p.2 _ i t h.1

theorem applyMatches_age_pres (dets : List Det) (m : List (ℕ × ℕ)) :
    ∀ d i, (∃ t, (i, t) ∈ d ∧ t.age = 0) →
    ∃ t, (i, t) ∈ applyMatches dets m d ∧ t.age = 0 := by
  induction m with
  | nil => intro d i h; exact h
  | cons p rest ih =>
    intro d i h
    unfold applyMatches at *
    rw [List.foldl_cons]
    apply ih
    obtain ⟨t, ht, hage⟩ := h
    by_cases hip : i = p.2
    · rw [hip]
      exact ⟨_, dictModify_mem_self d p.2 _ t (hip ▸ ht), rfl⟩
    · exact ⟨t, (dictModify_mem_ne d p.2 _ i t hip).mpr ht, hage⟩

theorem applyMatches_age_zero (dets : List Det) (m : List (ℕ × ℕ)) :
    ∀ d i, i ∈ m.map Prod.snd → i ∈ dictKeys d →
    ∃ t, (i, t) ∈ applyMatches dets m d ∧ t.age = 0 := by
  induction m with
  | nil => intro d i h _; exact absurd h (List.not_mem_nil i)
  | cons p rest ih =>
    intro d i h hkey
    unfold applyMatches at *
    rw [List.foldl_cons]
    rcases List.mem_cons.mp h with hip | hmem
    · apply applyMatches_age_pres
      obtain ⟨t, ht⟩ := (mem_dictKeys d i).mp hkey
      rw [hip]
      exact ⟨_, dictModify_mem_self d p.2 _ t (hip ▸ ht), rfl⟩
    · exact ih _ i hmem (by rw [dictKeys_dictModify]; exact hkey)

theorem applyMatches_mem_elim (dets : List Det) (m : List (ℕ × ℕ)) :
    ∀ d i t, (i, t) ∈ applyMatches dets m d →
    (i, t) ∈ d ∨ (i ∈ m.map Prod.snd ∧ t.age = 0) ∨ (∃ u, (i, u) ∈ d ∧ t.age = u.age) := by
  induction m with
  | nil => intro d i t h; exact Or.inl h
  | cons p rest ih =>
    intro d i t h
    unfold applyMatches at *
    rw [List.foldl_cons] at h
    rcases ih _ i t h with h2 | h2 | h2
    · rcases dictModify_mem_elim d p.2 _ i t h2 with h3 | ⟨u, hu, hik, hts⟩
      · exact Or.inl h3
      · exact Or.inr (Or.inl ⟨by simp [hik], by rw [hts]⟩)
    · exact Or.inr (Or.inl ⟨by simp [h2.1], h2.2⟩)
    · obtain ⟨u, hu, hage⟩ := h2
      rcases dictModify_mem_elim d p.2 _ i u hu with h3 | ⟨v, hv, hik, hus⟩
      · exact Or.inr (Or.inr ⟨u, h3, hage⟩)
      · exact Or.inr (Or.inl ⟨by simp [hik], by rw [hage, hus]⟩)

theorem ageTracks_keys (l : List ℕ) :
    ∀ d, dictKeys (ageTracks l d) = dictKeys d := by
  induction l with
  | nil => intro d; rfl
  | cons x rest ih =>
    intro d
    unfold ageTracks at *
    rw [List.foldl_cons, ih]
    exact dictKeys_dictModify d x _

theorem ageTracks_mem_notin (l : List ℕ) :
    ∀ d i t, i ∉ l → ((i, t) ∈ ageTracks l d ↔ (i, t) ∈ d) := by
  induction l with
  | nil => intro d i t _; rfl
  | cons x rest ih =>
    intro d i t h
    simp only [List.mem_cons] at h
    push_neg at h
    unfold ageTracks at *
    rw [List.foldl_cons, ih _ i t h.2]
    exact dictModify_mem_ne d x _ i t h.1

theorem ageTracks_mem (l : List ℕ) :
    ∀ d i t, l.Nodup → i ∈ l → (i, t) ∈ d →
    (i, { t with age := t.age + 1 }) ∈ ageTracks l d := by
  induction l with
  | nil => intro d i t _ h _; exact absurd h (List.not_mem_nil i)
  | cons x rest ih =>
    intro d i t hnd hmem ht
    simp only [List.nodup_cons] at hnd
    unfold ageTracks at *
    rw [List.foldl_cons]
    rcases List.mem_cons.mp hmem with hix | hix
    · subst hix
      exact (ageTracks_mem_notin rest _ i _ hnd.1).mpr (dictModify_mem_self d i _ t ht)
    · have hne : i ≠ x := fun he => hnd.1 (he ▸ hix)
      exact ih _ i t hnd.2 hix ((dictModify_mem_ne d x _ i t hne).mpr ht)

theorem createTracks_snd (high : List Det) (fc : ℕ) (xs : List ℕ) :
    ∀ nid, (createTracks high fc xs nid).2 = nid + xs.length := by
  induction xs with
  | nil => intro nid; simp [createTracks]
  | cons x rest ih =>
    intro nid
    simp only [createTracks, ih (nid + 1), List.length_cons]
    omega

theorem createTracks_keys (high : List Det) (fc : ℕ) (xs : List ℕ) :
    ∀ nid, dictKeys (createTracks high fc xs nid).1 = List.range' nid xs.length := by
  induction xs with
  | nil => intro nid; rfl
  | cons x rest ih =>
    intro nid
    simp only [createTracks, dictKeys, List.map_cons, List.length_cons, List.range']
    exact congrArg (nid :: ·) (ih (nid + 1))

theorem createTracks_mem (high : List Det) (fc : ℕ) (xs : List ℕ) :
    ∀ nid j, j < xs.length →
    (nid + j, ⟨(high.getD (xs.getD j 0) default).box, (high.getD (xs.getD j 0) default).conf,
      0, 1, fc⟩) ∈ (createTracks high fc xs nid).1 := by
  induction xs with
  | nil => intro nid j h; exact absurd h (by simp)
  | cons x rest ih =>
    intro nid j h
    match j with
    | 0 =>
      simp only [createTracks, List.getD_cons_zero, Nat.add_zero]
      exact List.mem_cons_self _ _
    | j + 1 =>
      simp only [createTracks, List.getD_cons_succ]
      refine List.mem_cons_of_mem _ ?_
      have := ih (nid + 1) j (by simpa [Nat.succ_lt_succ_iff] using h)
      rwa [show nid + 1 + j = nid + (j + 1) by omega] at this

theorem removeDead_mem (buffer : ℤ) (d : List (ℕ × Track)) (i : ℕ) (t : Track) :
    (i, t) ∈ removeDead buffer d ↔ (i, t) ∈ d ∧ (t.age : ℤ) ≤ buffer := by
  simp only [removeDead, List.mem_filter, decide_eq_true_eq, not_lt, gt_iff_lt]

theorem removeDead_sublist (buffer : ℤ) (d : List (ℕ × Track)) :
    (removeDead buffer d).Sublist d :=
  List.filter_sublist d

theorem activeResults_mem (d : List (ℕ × Track)) (b : Box) (i : ℕ) :
    (b, i) ∈ activeResults d ↔ ∃ t, (i, t) ∈ d ∧ t.age = 0 ∧ t.box = b := by
  simp only [activeResults, List.mem_filterMap]
  constructor
  · rintro ⟨p, hp, hpe⟩
    by_cases hage : p.2.age = 0
    · rw [if_pos hage] at hpe
      obtain ⟨h1, h2⟩ := Prod.mk.injEq _ _ _ _ ▸ Option.some.inj hpe
      refine ⟨p.2, ?_, hage, h1⟩
      rwa [show (i, p.2) = p from Prod.ext h2.symm rfl]
    · rw [if_neg hage] at hpe
      exact absurd hpe (by simp)
  · rintro ⟨t, ht, hage, hbox⟩
    exact ⟨(i, t), ht, by simp [hage, hbox]⟩

theorem ageAll_keys (d : List (ℕ × Track)) : dictKeys (ageAll d) = dictKeys d := by
  simp [ageAll, dictKeys, List.map_map, Function.comp]

theorem ageAll_mem (d : List (ℕ × Track)) (i : ℕ) (t : Track) :
    (i, t) ∈ ageAll d ↔ ∃ u, (i, u) ∈ d ∧ t = { u with age := u.age + 1 } := by
  simp only [ageAll, List.mem_map]
  constructor
  · rintro ⟨p, hp, hpe⟩
    obtain ⟨h1, h2⟩ := Prod.mk.injEq _ _ _ _ ▸ hpe
    exact ⟨p.2, by rwa [show (i, p.2) = p from Prod.ext h1.symm rfl], h2.symm⟩
  · rintro ⟨u, hu, hue⟩
    exact ⟨(i, u), hu, by rw [hue]⟩

/-! ### Geometry lemmas -/

theorem interArea_nonneg (a b : Box) : 0 ≤ interArea a b :=
  mul_nonneg (le_max_left _ _) (le_max_left _ _)

theorem interArea_comm (a b : Box) : interArea a b = interArea b a := by
  unfold interArea
  rw [min_comm a.x2, max_comm a.x1, min_comm a.y2, max_comm a.y1]

theorem unionArea_comm (a b : Box) : unionArea a b = unionArea b a := by
  unfold unionArea
  rw [interArea_comm]
  ring

theorem calculate_iou_comm (a b : Box) : calculate_iou a b = calculate_iou b a := by
  unfold calculate_iou
  rw [interArea_comm, unionArea_comm]

theorem interArea_le_areas (a b : Box) (h : 0 < interArea a b) :
    interArea a b ≤ calculate_bbox_area a ∧ interArea a b ≤ calculate_bbox_area b := by
  unfold interArea at *
  set w := min a.x2 b.x2 - max a.x1 b.x1 with hw
  set v := min a.y2 b.y2 - max a.y1 b.y1 with hv
  have hw0 : 0 < max 0 w := by
    rcases (mul_pos_iff.mp h) with ⟨h1, _⟩ | ⟨h1, h2⟩
    · exact h1
    · exact absurd h1 (not_lt.mpr (le_max_left _ _))
  have hv0 : 0 < max 0 v := by
    rcases (mul_pos_iff.mp h) with ⟨_, h2⟩ | ⟨h1, _⟩
    · exact h2
    · exact absurd h1 (not_lt.mpr (le_max_left _ _))
  have hwpos : 0 < w := by
    by_contra hc
    push_neg at hc
    rw [max_eq_left hc] at hw0
    exact lt_irrefl 0 hw0
  have hvpos : 0 < v := by
    by_contra hc
    push_neg at hc
    rw [max_eq_left hc] at hv0
    exact lt_irrefl 0 hv0
  rw [max_eq_right hwpos.le, max_eq_right hvpos.le]
  have hwa : w ≤ a.x2 - a.x1 := by
    have h1 : min a.x2 b.x2 ≤ a.x2 := min_le_left _ _
    have h2 : a.x1 ≤ max a.x1 b.x1 := le_max_left _ _
    simp only [hw]; linarith
  have hva : v ≤ a.y2 - a.y1 := by
    have h1 : min a.y2 b.y2 ≤ a.y2 := min_le_left _ _
    have h2 : a.y1 ≤ max a.y1 b.y1 := le_max_left _ _
    simp only [hv]; linarith
  have hwb : w ≤ b.x2 - b.x1 := by
    have h1 : min a.x2 b.x2 ≤ b.x2 := min_le_right _ _
    have h2 : b.x1 ≤ max a.x1 b.x1 := le_max_right _ _
    simp only [hw]; linarith
  have hvb : v ≤ b.y2 - b.y1 := by
    have h1 : min a.y2 b.y2 ≤ b.y2 := min_le_right _ _
    have h2 : b.y1 ≤ max a.y1 b.y1 := le_max_right _ _
    simp only [hv]; linarith
  constructor
  · unfold calculate_bbox_area
    exact mul_le_mul hwa hva hvpos.le (by linarith)
  · unfold calculate_bbox_area
    exact mul_le_mul hwb hvb hvpos.le (by linarith)

theorem calculate_iou_nonneg (a b : Box) : 0 ≤ calculate_iou a b := by
  unfold calculate_iou
  split
  · exact div_nonneg (interArea_nonneg a b) (by linarith)
  · exact le_refl 0

theorem calculate_iou_le_one (a b : Box) : calculate_iou a b ≤ 1 := by
  unfold calculate_iou
  split
  · rename_i hpos
    rw [div_le_one hpos]
    by_cases hi : 0 < interArea a b
    · have h2 := interArea_le_areas a b hi
      unfold unionArea at *
      linarith [h2.1, h2.2]
    · push_neg at hi
      linarith
  · norm_num

theorem calculate_iou_no_overlap (a b : Box)
    (h : min a.x2 b.x2 ≤ max a.x1 b.x1 ∨ min a.y2 b.y2 ≤ max a.y1 b.y1) :
    calculate_iou a b = 0 := by
  have hz : interArea a b = 0 := by
    unfold interArea
    rcases h with h | h
    · rw [max_eq_left (by linarith), zero_mul]
    · rw [max_eq_left (by linarith : min a.y2 b.y2 - max a.y1 b.y1 ≤ 0), mul_zero]
  unfold calculate_iou
  rw [hz]
  split
  · exact zero_div _
  · rfl

/-- C10 (amended): `calculate_iou` is symmetric, equals 1 on any box with
positive width and height applied to itself, is 0 whenever the boxes do not
overlap (in either axis) or the union area is 0, and always lies in `[0, 1]`.
The original claim's clause that `iou(a,a) = 1` for any box with positive
*area* fails for coordinate-inverted boxes, whose area formula is positive —
see `iou_self_positive_area_counterexample`. -/
theorem iou_algebraic_properties (a b : Box) :
    calculate_iou a b = calculate_iou b a ∧
    (a.x1 < a.x2 → a.y1 < a.y2 → calculate_iou a a = 1) ∧
    (min a.x2 b.x2 ≤ max a.x1 b.x1 ∨ min a.y2 b.y2 ≤ max a.y1 b.y1 →
      calculate_iou a b = 0) ∧
    (unionArea a b = 0 → calculate_iou a b = 0) ∧
    0 ≤ calculate_iou a b ∧ calculate_iou a b ≤ 1 := by
  refine ⟨calculate_iou_comm a b, ?_, calculate_iou_no_overlap a b, ?_,
    calculate_iou_nonneg a b, calculate_iou_le_one a b⟩
  · intro hx hy
    have hinter : interArea a a = calculate_bbox_area a := by
      unfold interArea calculate_bbox_area
      rw [min_self, min_self, max_self, max_self,
        max_eq_right (by linarith : (0:ℚ) ≤ a.x2 - a.x1),
        max_eq_right (by linarith : (0:ℚ) ≤ a.y2 - a.y1)]
    have harea : 0 < calculate_bbox_area a := by
      unfold calculate_bbox_area
      exact mul_pos (by linarith) (by linarith)
    have huni : unionArea a a = calculate_bbox_area a := by
      unfold unionArea
      rw [hinter]; ring
    unfold calculate_iou
    rw [huni, hinter, if_pos harea, div_self harea.ne']
  · intro hz
    unfold calculate_iou
    rw [hz]
    norm_num

/-- C10, counterexample to the claim as stated: the coordinate-inverted box
`(10, 10, 0, 0)` has `(x2-x1)*(y2-y1) = 100 > 0`, yet its IoU with itself is 0,
not 1, because both clamped intersection extents are negative. -/
theorem iou_self_positive_area_counterexample :
    calculate_bbox_area ⟨10, 10, 0, 0⟩ = 100 ∧ (0 : ℚ) < 100 ∧
    calculate_iou ⟨10, 10, 0, 0⟩ ⟨10, 10, 0, 0⟩ = 0 ∧ (0 : ℚ) ≠ 1 := by
  norm_num [calculate_bbox_area, calculate_iou, unionArea, interArea]

theorem iou_algebraic_properties_witness :
    ((0:ℚ) < 1 ∧ (0:ℚ) < 1) ∧ calculate_iou ⟨0, 0, 1, 1⟩ ⟨0, 0, 1, 1⟩ = 1 :=
  ⟨⟨by norm_num, by norm_num⟩,
    (iou_algebraic_properties ⟨0, 0, 1, 1⟩ ⟨0, 0, 1, 1⟩).2.1 (by norm_num) (by norm_num)⟩

/-! ### Construction (C9) -/

/-- C9: neither constructor validates its configuration. `ByteTracker.__init__`
and `WeightEstimator.__init__` store out-of-range thresholds (negative
`track_thresh`, non-positive `track_buffer`, `match_thresh > 1`, negative
factors) verbatim and raise nothing; the invalid values are only encountered
mid-run. -/
theorem constructor_accepts_invalid_config :
    ByteTracker.init (-1) (-5) 2 =
      { track_thresh := -1, track_buffer := -5, match_thresh := 2,
        tracks := [], next_id := 1, frame_count := 0 } ∧
    WeightEstimator.init (-3) (-7) = ⟨-3, -7⟩ :=
  ⟨rfl, rfl⟩

/-! ### Aggregator recording step (C4) -/

/-- C4: the recording step of `process_video` raises AttributeError on every
frame with at least one active track: the tracker returns plain Python lists,
and `track[:4].tolist()` (video_processor.py line 111) is called on a plain
list slice, which has no `tolist` method. The confidence-recovery scan is never
reached. -/
theorem storeTrackInfo_raises (detections tracks : List (List ℚ))
    (h : tracks ≠ []) :
    storeTrackInfo detections tracks =
      .error "AttributeError: list object has no attribute tolist" := by
  match tracks with
  | [] => exact absurd rfl h
  | t :: rest => simp [storeTrackInfo, PyVal.tolist]

theorem storeTrackInfo_raises_witness :
    ([[0, 0, 10, 10, 1]] : List (List ℚ)) ≠ [] ∧
    storeTrackInfo [] [[0, 0, 10, 10, 1]] =
      .error "AttributeError: list object has no attribute tolist" :=
  ⟨by simp, storeTrackInfo_raises [] [[0, 0, 10, 10, 1]] (by simp)⟩

/-! ### Tracker never-raises (C8) -/

/-- C8: with the spec-valid configuration `match_thresh = 0` (and valid
`track_thresh = 0.5`, `track_buffer = 30`), `update` raises: frame 1 creates a
track, and in frame 2 a far-away detection leaves the maximum remaining IoU at
0, which is not `< 0`, so `_match` appends the sentinel pair `(-1, -1)` and
`unmatched_dets.remove(-1)` raises ValueError (tracker.py lines 154-170) —
contradicting the claim that `update` never raises for thresholds in `[0,1]`. -/
theorem negOne_negSucc : (-1 : ℤ) = Int.negSucc 0 := rfl

theorem update_raises_at_zero_match_thresh :
    runUpdates (ByteTracker.init (1/2) 30 0)
      [[⟨⟨0, 0, 10, 10⟩, 9/10⟩], [⟨⟨100, 100, 110, 110⟩, 9/10⟩]] =
    .error "ValueError: list.remove(x): x not in list" := by
  have h1 : update (ByteTracker.init (1/2) 30 0) [⟨⟨0, 0, 10, 10⟩, 9/10⟩] =
      .ok ([(⟨0, 0, 10, 10⟩, 1)],
        ⟨1/2, 30, 0, [(1, ⟨⟨0, 0, 10, 10⟩, 9/10, 0, 1, 1⟩)], 2, 1⟩) := by
    norm_num [update, ByteTracker.init, byteMatch, applyMatches, createTracks,
      ageTracks, removeDead, activeResults, dictKeys, secondPass, List.filterMap_cons]
  have h2 : update (⟨1/2, 30, 0, [(1, ⟨⟨0, 0, 10, 10⟩, 9/10, 0, 1, 1⟩)], 2, 1⟩ : TrackerState)
        [⟨⟨100, 100, 110, 110⟩, 9/10⟩] =
      .error "ValueError: list.remove(x): x not in list" := by
    have hs : scanMax (trackIoU [⟨⟨100, 100, 110, 110⟩, 9/10⟩]
          [(1, ⟨⟨0, 0, 10, 10⟩, (9:ℚ)/10, 0, 1, 1⟩)])
        (List.range 1) [1] = (0, -1, -1) := by
      norm_num [scanMax, trackIoU, dictLookup, calculate_iou, unionArea, interArea,
        calculate_bbox_area, List.range_succ]
    have hm : byteMatch [⟨⟨100, 100, 110, 110⟩, (9:ℚ)/10⟩]
        [(1, ⟨⟨0, 0, 10, 10⟩, 9/10, 0, 1, 1⟩)] 0 =
        .error "ValueError: list.remove(x): x not in list" := by
      norm_num [byteMatch, dictKeys, matchLoop, hs, removeE, negOne_negSucc]
      rfl
    norm_num [update, hm]
  simp only [runUpdates, h1, h2]

/-! ### Matching-pass lemmas (C3) -/

theorem scanMax_eq_fold (iou : ℕ → ℕ → ℚ) (ud ut : List ℕ) :
    scanMax iou ud ut = ud.foldl (fun acc i => ut.foldl (scanStep iou i) acc) (0, -1, -1) :=
  rfl

theorem specScan_eq_fold (iou : ℕ → ℕ → ℚ) (ud ut : List ℕ) :
    specScan iou ud ut = ud.foldl (fun acc i => ut.foldl (specStep iou i) acc) none :=
  rfl

theorem scanRel_step (iou : ℕ → ℕ → ℚ) (ud ut : List ℕ) (i t : ℕ)
    (hi : i ∈ ud) (ht : t ∈ ut) (cacc : ℚ × ℤ × ℤ) (sacc : Option (ℕ × ℕ × ℚ))
    (h : ScanRel iou ud ut cacc sacc) :
    ScanRel iou ud ut (scanStep iou i cacc t) (specStep iou i sacc t) := by
  rcases h with ⟨hc, hs⟩ | ⟨i0, t0, hi0, ht0, hpos, hceq, hseq⟩
  · subst hc
    rcases hs with hs | ⟨p, hp, hple⟩
    · subst hs
      by_cases hgt : 0 < iou i t
      · simp only [scanStep, specStep, gt_iff_lt,
          show ((0 : ℚ), (-1 : ℤ), (-1 : ℤ)).1 = 0 from rfl, if_pos hgt]
        exact Or.inr ⟨i, t, hi, ht, hgt, rfl, rfl⟩
      · simp only [scanStep, specStep, gt_iff_lt,
          show ((0 : ℚ), (-1 : ℤ), (-1 : ℤ)).1 = 0 from rfl, if_neg hgt]
        exact Or.inl ⟨rfl, Or.inr ⟨(i, t, iou i t), rfl, le_of_not_lt hgt⟩⟩
    · subst hp
      by_cases hgt : 0 < iou i t
      · simp only [scanStep, specStep, gt_iff_lt,
          show ((0 : ℚ), (-1 : ℤ), (-1 : ℤ)).1 = 0 from rfl, if_pos hgt,
          if_pos (lt_of_le_of_lt hple hgt)]
        exact Or.inr ⟨i, t, hi, ht, hgt, rfl, rfl⟩
      · simp only [scanStep, specStep, gt_iff_lt,
          show ((0 : ℚ), (-1 : ℤ), (-1 : ℤ)).1 = 0 from rfl, if_neg hgt]
        by_cases hgt2 : p.2.2 < iou i t
        · simp only [if_pos hgt2]
          exact Or.inl ⟨rfl, Or.inr ⟨(i, t, iou i t), rfl, le_of_not_lt hgt⟩⟩
        · simp only [if_neg hgt2]
          exact Or.inl ⟨rfl, Or.inr ⟨p, rfl, hple⟩⟩
  · subst hceq
    subst hseq
    by_cases hgt : iou i0 t0 < iou i t
    · simp only [scanStep, specStep, gt_iff_lt,
        show (iou i0 t0, (i0 : ℤ), (t0 : ℤ)).1 = iou i0 t0 from rfl, if_pos hgt]
      exact Or.inr ⟨i, t, hi, ht, lt_trans hpos hgt, rfl, rfl⟩
    · simp only [scanStep, specStep, gt_iff_lt,
        show (iou i0 t0, (i0 : ℤ), (t0 : ℤ)).1 = iou i0 t0 from rfl, if_neg hgt]
      exact Or.inr ⟨i0, t0, hi0, ht0, hpos, rfl, rfl⟩

theorem scanRel_inner (iou : ℕ → ℕ → ℚ) (ud ut : List ℕ) (i : ℕ) (hi : i ∈ ud) :
    ∀ (l : List ℕ), (∀ t ∈ l, t ∈ ut) →
    ∀ cacc sacc, ScanRel iou ud ut cacc sacc →
    ScanRel iou ud ut (l.foldl (scanStep iou i) cacc) (l.foldl (specStep iou i) sacc) := by
  intro l
  induction l with
  | nil => intro _ cacc sacc h; exact h
  | cons t rest ih =>
    intro hmem cacc sacc h
    simp only [List.foldl_cons]
    exact ih (fun x hx => hmem x (List.mem_cons_of_mem t hx))
      _ _ (scanRel_step iou ud ut i t hi (hmem t (List.mem_cons_self t rest)) cacc sacc h)

theorem scanRel_scan (iou : ℕ → ℕ → ℚ) (ud ut : List ℕ) :
    ScanRel iou ud ut (scanMax iou ud ut) (specScan iou ud ut) := by
  have main : ∀ (l : List ℕ), (∀ x ∈ l, x ∈ ud) →
      ∀ cacc sacc, ScanRel iou ud ut cacc sacc →
      ScanRel iou ud ut
        (l.foldl (fun acc i => ut.foldl (scanStep iou i) acc) cacc)
        (l.foldl (fun acc i => ut.foldl (specStep iou i) acc) sacc) := by
    intro l
    induction l with
    | nil => intro _ cacc sacc h; exact h
    | cons x rest ih =>
      intro hmem cacc sacc h
      simp only [List.foldl_cons]
      exact ih (fun y hy => hmem y (List.mem_cons_of_mem x hy)) _ _
        (scanRel_inner iou ud ut x (hmem x (List.mem_cons_self x rest)) ut (fun _ ht => ht)
          cacc sacc h)
  rw [scanMax_eq_fold, specScan_eq_fold]
  exact main ud (fun _ hx => hx) (0, -1, -1) none (Or.inl ⟨rfl, Or.inl rfl⟩)

theorem specStep_ne_none (iou : ℕ → ℕ → ℚ) (i t : ℕ) (acc : Option (ℕ × ℕ × ℚ)) :
    specStep iou i acc t ≠ none := by
  match acc with
  | none => exact Option.some_ne_none _
  | some b =>
    simp only [specStep]
    by_cases hgt : iou i t > b.2.2
    · simp only [if_pos hgt]; exact Option.some_ne_none _
    · simp only [if_neg hgt]; exact Option.some_ne_none _

theorem specScan_inner_ne_none (iou : ℕ → ℕ → ℚ) (i : ℕ) :
    ∀ (l : List ℕ) (acc : Option (ℕ × ℕ × ℚ)), acc ≠ none →
    l.foldl (specStep iou i) acc ≠ none := by
  intro l
  induction l with
  | nil => intro acc h; exact h
  | cons t rest ih =>
    intro acc h
    simp only [List.foldl_cons]
    exact ih _ (specStep_ne_none iou i t acc)

theorem specScan_inner_ne_none2 (iou : ℕ → ℕ → ℚ) (i : ℕ) (l : List ℕ) (hl : l ≠ [])
    (acc : Option (ℕ × ℕ × ℚ)) : l.foldl (specStep iou i) acc ≠ none := by
  match l with
  | t :: rest =>
    rw [List.foldl_cons]
    exact specScan_inner_ne_none iou i rest _ (specStep_ne_none iou i t acc)

theorem specScan_outer_ne_none (iou : ℕ → ℕ → ℚ) (ut : List ℕ) :
    ∀ (l : List ℕ) (acc : Option (ℕ × ℕ × ℚ)),
    (acc ≠ none ∨ (l ≠ [] ∧ ut ≠ [])) →
    l.foldl (fun acc i => ut.foldl (specStep iou i) acc) acc ≠ none := by
  intro l
  induction l with
  | nil =>
    intro acc h
    rcases h with h | ⟨h, _⟩
    · exact h
    · exact absurd rfl h
  | cons x rest ih =>
    intro acc h
    rw [List.foldl_cons]
    rcases h with h | ⟨_, hut⟩
    · exact ih _ (Or.inl (specScan_inner_ne_none iou x ut acc h))
    · exact ih _ (Or.inl (specScan_inner_ne_none2 iou x ut hut acc))

theorem specScan_ne_none (iou : ℕ → ℕ → ℚ) (ud ut : List ℕ)
    (hud : ud ≠ []) (hut : ut ≠ []) : specScan iou ud ut ≠ none := by
  rw [specScan_eq_fold]
  exact specScan_outer_ne_none iou ut ud none (Or.inr ⟨hud, hut⟩)

theorem specScan_empty_right (iou : ℕ → ℕ → ℚ) (ud : List ℕ) :
    specScan iou ud [] = none := by
  rw [specScan_eq_fold]
  induction ud with
  | nil => rfl
  | cons x rest ih => simp only [List.foldl_cons]; exact ih

theorem removeE_ok_elim (xs : List ℕ) (v : ℤ) (ys : List ℕ)
    (h : removeE xs v = .ok ys) : ∃ n : ℕ, v = (n : ℤ) ∧ n ∈ xs ∧ ys = xs.erase n := by
  match v with
  | Int.ofNat n =>
    by_cases hmem : n ∈ xs
    · refine ⟨n, rfl, hmem, ?_⟩
      simp only [removeE, if_pos hmem] at h
      exact (Except.ok.inj h).symm
    · simp only [removeE, if_neg hmem] at h
      exact absurd h (by simp)
  | Int.negSucc m =>
    simp only [removeE] at h
    exact absurd h (by simp)

theorem matchLoop_eq_specGreedy (iou : ℕ → ℕ → ℚ) (thresh : ℚ) (hth : 0 < thresh) :
    ∀ (fuel : ℕ) (matched : List (ℕ × ℕ)) (ud ut : List ℕ),
    matchLoop iou thresh fuel matched ud ut = .ok (specGreedy iou thresh fuel matched ud ut) := by
  intro fuel
  induction fuel with
  | zero => intro matched ud ut; rfl
  | succ fuel ih =>
    intro matched ud ut
    by_cases hc : 0 < ud.length ∧ 0 < ut.length
    · have hud : ud ≠ [] := List.ne_nil_of_length_pos hc.1
      have hut : ut ≠ [] := List.ne_nil_of_length_pos hc.2
      rcases scanRel_scan iou ud ut with ⟨hc0, hs⟩ | ⟨i, t, hi, ht, hpos, hceq, hseq⟩
      · rcases hs with hs | ⟨p, hp, hple⟩
        · exact absurd hs (specScan_ne_none iou ud ut hud hut)
        · have hplt : p.2.2 < thresh := lt_of_le_of_lt hple hth
          simp only [matchLoop, specGreedy, if_pos hc, hc0, hp,
            show ((0 : ℚ), (-1 : ℤ), (-1 : ℤ)).1 = 0 from rfl, if_pos hth, if_pos hplt]
      · simp only [matchLoop, specGreedy, if_pos hc, hceq, hseq]
        by_cases hlt : iou i t < thresh
        · simp only [show (iou i t, (i : ℤ), (t : ℤ)).1 = iou i t from rfl, if_pos hlt]
        · simp only [show (iou i t, (i : ℤ), (t : ℤ)).1 = iou i t from rfl, if_neg hlt,
            show (iou i t, (i : ℤ), (t : ℤ)).2.1 = (i : ℤ) from rfl,
            show (iou i t, (i : ℤ), (t : ℤ)).2.2 = (t : ℤ) from rfl]
          simp only [removeE, Int.toNat_natCast]
          rw [if_pos hi, if_pos ht]
          exact ih (matched ++ [(i, t)]) (ud.erase i) (ut.erase t)
    · have hems : ud = [] ∨ ut = [] := by
        rcases Nat.eq_zero_or_pos ud.length with h | h
        · exact Or.inl (List.eq_nil_of_length_eq_zero h)
        · rcases Nat.eq_zero_or_pos ut.length with h2 | h2
          · exact Or.inr (List.eq_nil_of_length_eq_zero h2)
          · exact absurd ⟨h, h2⟩ hc
      have hnone : specScan iou ud ut = none := by
        rcases hems with h | h
        · subst h; rfl
        · subst h; exact specScan_empty_right iou ud
      simp only [matchLoop, specGreedy, if_neg hc, hnone]

theorem byteMatch_eq_specMatch (dets : List Det) (d : List (ℕ × Track)) (thresh : ℚ)
    (hth : 0 < thresh) : byteMatch dets d thresh = .ok (specMatch dets d thresh) := by
  unfold byteMatch specMatch
  by_cases hc : dets.length = 0 ∨ d.length = 0
  · simp only [if_pos hc]
  · simp only [if_neg hc]
    exact matchLoop_eq_specGreedy (trackIoU dets d) thresh hth dets.length []
      (List.range dets.length) (dictKeys d)

theorem scanMax_char (iou : ℕ → ℕ → ℚ) (ud ut : List ℕ) :
    scanMax iou ud ut = (0, -1, -1) ∨
    ∃ i t, i ∈ ud ∧ t ∈ ut ∧ 0 < iou i t ∧
      scanMax iou ud ut = (iou i t, (i : ℤ), (t : ℤ)) := by
  rcases scanRel_scan iou ud ut with ⟨hc, _⟩ | ⟨i, t, hi, ht, hpos, hceq, _⟩
  · exact Or.inl hc
  · exact Or.inr ⟨i, t, hi, ht, hpos, hceq⟩

theorem matchLoop_accepted (iou : ℕ → ℕ → ℚ) (thresh : ℚ) :
    ∀ (fuel : ℕ) (matched : List (ℕ × ℕ)) (ud ut : List ℕ)
      (m2 : List (ℕ × ℕ)) (ud2 ut2 : List ℕ),
    matchLoop iou thresh fuel matched ud ut = .ok (m2, ud2, ut2) →
    (∀ p ∈ matched, thresh ≤ iou p.1 p.2) →
    ∀ p ∈ m2, thresh ≤ iou p.1 p.2 := by
  intro fuel
  induction fuel with
  | zero =>
    intro matched ud ut m2 ud2 ut2 h hm
    simp only [matchLoop] at h
    simp only [Except.ok.injEq, Prod.mk.injEq] at h
    exact h.1 ▸ hm
  | succ fuel ih =>
    intro matched ud ut m2 ud2 ut2 h hm
    simp only [matchLoop] at h
    by_cases hc : 0 < ud.length ∧ 0 < ut.length
    · rw [if_pos hc] at h
      by_cases hlt : (scanMax iou ud ut).1 < thresh
      · rw [if_pos hlt] at h
        simp only [Except.ok.injEq, Prod.mk.injEq] at h
        exact h.1 ▸ hm
      · rw [if_neg hlt] at h
        cases hr1 : removeE ud (scanMax iou ud ut).2.1 with
        | error e => rw [hr1] at h; simp at h
        | ok ud3 =>
          cases hr2 : removeE ut (scanMax iou ud ut).2.2 with
          | error e => rw [hr1, hr2] at h; simp at h
          | ok ut3 =>
            rw [hr1, hr2] at h
            obtain ⟨n1, hn1, hmem1, -⟩ := removeE_ok_elim ud _ ud3 hr1
            rcases scanMax_char iou ud ut with hsent | ⟨i, t, hi, ht, hpos, heq⟩
            · rw [hsent] at hn1
              exact absurd hn1 (by simp)
            · refine ih _ _ _ _ _ _ h ?_
              intro p hp
              rcases List.mem_append.mp hp with hp | hp
              · exact hm p hp
              · have hpe : p = (i, t) := by
                  have h1 : (scanMax iou ud ut).2.1.toNat = i := by
                    rw [heq]; exact Int.toNat_natCast i
                  have h2 : (scanMax iou ud ut).2.2.toNat = t := by
                    rw [heq]; exact Int.toNat_natCast t
                  simpa [h1, h2] using hp
                have hth2 : thresh ≤ iou i t := by
                  have : (scanMax iou ud ut).1 = iou i t := by rw [heq]
                  exact le_of_not_lt (this ▸ hlt)
                rw [hpe]
                exact hth2
    · rw [if_neg hc] at h
      simp only [Except.ok.injEq, Prod.mk.injEq] at h
      exact h.1 ▸ hm

theorem matchLoop_parts (iou : ℕ → ℕ → ℚ) (thresh : ℚ) :
    ∀ (fuel : ℕ) (matched : List (ℕ × ℕ)) (ud ut : List ℕ)
      (m2 : List (ℕ × ℕ)) (ud2 ut2 : List ℕ),
    matchLoop iou thresh fuel matched ud ut = .ok (m2, ud2, ut2) →
    ∃ dl, m2 = matched ++ dl ∧
      (↑ud : Multiset ℕ) = ↑(dl.map Prod.fst) + ↑ud2 ∧
      (↑ut : Multiset ℕ) = ↑(dl.map Prod.snd) + ↑ut2 ∧
      ud2.Sublist ud ∧ ut2.Sublist ut := by
  intro fuel
  induction fuel with
  | zero =>
    intro matched ud ut m2 ud2 ut2 h
    simp only [matchLoop] at h
    simp only [Except.ok.injEq, Prod.mk.injEq] at h
    obtain ⟨h1, h2, h3⟩ := h
    subst h1 h2 h3
    exact ⟨[], by simp, by simp, by simp, List.Sublist.refl ud, List.Sublist.refl ut⟩
  | succ fuel ih =>
    intro matched ud ut m2 ud2 ut2 h
    simp only [matchLoop] at h
    by_cases hc : 0 < ud.length ∧ 0 < ut.length
    · rw [if_pos hc] at h
      by_cases hlt : (scanMax iou ud ut).1 < thresh
      · rw [if_pos hlt] at h
        simp only [Except.ok.injEq, Prod.mk.injEq] at h
        obtain ⟨h1, h2, h3⟩ := h
        subst h1 h2 h3
        exact ⟨[], by simp, by simp, by simp, List.Sublist.refl ud, List.Sublist.refl ut⟩
      · rw [if_neg hlt] at h
        cases hr1 : removeE ud (scanMax iou ud ut).2.1 with
        | error e => rw [hr1] at h; simp at h
        | ok ud3 =>
          cases hr2 : removeE ut (scanMax iou ud ut).2.2 with
          | error e => rw [hr1, hr2] at h; simp at h
          | ok ut3 =>
            rw [hr1, hr2] at h
            obtain ⟨n1, hn1, hmem1, herase1⟩ := removeE_ok_elim ud _ ud3 hr1
            obtain ⟨n2, hn2, hmem2, herase2⟩ := removeE_ok_elim ut _ ut3 hr2
            subst herase1
            subst herase2
            obtain ⟨dl, hdl, hud, hut, hsub1, hsub2⟩ := ih _ _ _ _ _ _ h
            refine ⟨(n1, n2) :: dl, ?_, ?_, ?_, ?_, ?_⟩
            · rw [hdl, hn1, hn2, Int.toNat_natCast, Int.toNat_natCast, List.append_assoc]
              rfl
            · have hperm : (↑ud : Multiset ℕ) = ↑(n1 :: ud.erase n1) :=
                (Multiset.coe_eq_coe).mpr (List.perm_cons_erase hmem1)
              rw [hperm, ← Multiset.cons_coe, hud]
              simp [Multiset.cons_add]
            · have hperm : (↑ut : Multiset ℕ) = ↑(n2 :: ut.erase n2) :=
                (Multiset.coe_eq_coe).mpr (List.perm_cons_erase hmem2)
              rw [hperm, ← Multiset.cons_coe, hut]
              simp [Multiset.cons_add]
            · exact hsub1.trans (List.erase_sublist n1 ud)
            · exact hsub2.trans (List.erase_sublist n2 ut)
    · rw [if_neg hc] at h
      simp only [Except.ok.injEq, Prod.mk.injEq] at h
      obtain ⟨h1, h2, h3⟩ := h
      subst h1 h2 h3
      exact ⟨[], by simp, by simp, by simp, List.Sublist.refl ud, List.Sublist.refl ut⟩

theorem byteMatch_parts (dets : List Det) (d : List (ℕ × Track)) (thresh : ℚ)
    (m : List (ℕ × ℕ)) (ud ut : List ℕ)
    (h : byteMatch dets d thresh = .ok (m, ud, ut)) :
    (↑(List.range dets.length) : Multiset ℕ) = ↑(m.map Prod.fst) + ↑ud ∧
    (↑(dictKeys d) : Multiset ℕ) = ↑(m.map Prod.snd) + ↑ut ∧
    ud.Sublist (List.range dets.length) ∧ ut.Sublist (dictKeys d) := by
  unfold byteMatch at h
  by_cases hc : dets.length = 0 ∨ d.length = 0
  · rw [if_pos hc] at h
    simp only [Except.ok.injEq, Prod.mk.injEq] at h
    obtain ⟨h1, h2, h3⟩ := h
    subst h1 h2 h3
    exact ⟨by simp, by simp, List.Sublist.refl _, List.Sublist.refl _⟩
  · rw [if_neg hc] at h
    obtain ⟨dl, hdl, hud, hut, hsub1, hsub2⟩ :=
      matchLoop_parts (trackIoU dets d) thresh dets.length [] _ _ m ud ut h
    rw [List.nil_append] at hdl
    subst hdl
    exact ⟨hud, hut, hsub1, hsub2⟩

theorem byteMatch_accepted (dets : List Det) (d : List (ℕ × Track)) (thresh : ℚ)
    (m : List (ℕ × ℕ)) (ud ut : List ℕ)
    (h : byteMatch dets d thresh = .ok (m, ud, ut)) :
    ∀ p ∈ m, thresh ≤ trackIoU dets d p.1 p.2 := by
  unfold byteMatch at h
  by_cases hc : dets.length = 0 ∨ d.length = 0
  · rw [if_pos hc] at h
    simp only [Except.ok.injEq, Prod.mk.injEq] at h
    obtain ⟨h1, -, -⟩ := h
    subst h1
    intro p hp
    exact absurd hp (List.not_mem_nil p)
  · rw [if_neg hc] at h
    exact matchLoop_accepted (trackIoU dets d) thresh dets.length [] _ _ m ud ut h
      (fun p hp => absurd hp (List.not_mem_nil p))

theorem secondPass_parts (low : List Det) (tracks1 : List (ℕ × Track)) (ut : List ℕ)
    (thresh : ℚ) (ml : List (ℕ × ℕ)) (ut2 : List ℕ)
    (h : secondPass low tracks1 ut thresh = .ok (ml, ut2)) :
    (↑ut : Multiset ℕ) = ↑(ml.map Prod.snd) + ↑ut2 ∧ ut2.Sublist ut := by
  unfold secondPass at h
  by_cases hc : 0 < low.length ∧ 0 < ut.length
  · rw [if_pos hc] at h
    cases hbm : byteMatch low (ut.map (fun tid => (tid, dictLookup tracks1 tid))) thresh with
    | error e => rw [hbm] at h; exact absurd h (by simp)
    | ok trip =>
      obtain ⟨ml2, rest, ut3⟩ := trip
      rw [hbm] at h
      simp only [Except.ok.injEq, Prod.mk.injEq] at h
      obtain ⟨h1, h2⟩ := h
      subst h1 h2
      have hkeys : dictKeys (ut.map (fun tid => (tid, dictLookup tracks1 tid))) = ut := by
        have hcomp : (Prod.fst ∘ fun tid : ℕ => (tid, dictLookup tracks1 tid)) = id := rfl
        simp only [dictKeys, List.map_map, hcomp, List.map_id]
      have hparts := byteMatch_parts low _ thresh ml2 rest ut3 hbm
      rw [hkeys] at hparts
      exact ⟨hparts.2.1, hparts.2.2.2⟩
  · rw [if_neg hc] at h
    simp only [Except.ok.injEq, Prod.mk.injEq] at h
    obtain ⟨h1, h2⟩ := h
    subst h1 h2
    exact ⟨by simp, List.Sublist.refl ut⟩

/-- C3 (amended): for `matchThresh > 0`, `_match` behaves exactly as the
specification's greedy algorithm (`specMatch`, built from the spec's wording):
empty side means no matches with everything unmatched; otherwise it repeatedly
takes the highest remaining IoU pair (first encountered maximum wins), stops as
soon as that maximum is below `matchThresh`, and removes both members of each
accepted pair; consequently every accepted match has IoU `>= matchThresh`.
For `matchThresh = 0` the claim fails: `_match` raises ValueError instead of
matching the remaining zero-IoU pair — see
`match_pass_zero_thresh_counterexample`. -/
theorem match_pass_greedy (dets : List Det) (d : List (ℕ × Track)) (thresh : ℚ)
    (hth : 0 < thresh) :
    byteMatch dets d thresh = .ok (specMatch dets d thresh) ∧
    (dets = [] ∨ d = [] →
      byteMatch dets d thresh = .ok ([], List.range dets.length, dictKeys d)) ∧
    (∀ m ud ut, byteMatch dets d thresh = .ok (m, ud, ut) →
      ∀ p ∈ m, thresh ≤ trackIoU dets d p.1 p.2) := by
  refine ⟨byteMatch_eq_specMatch dets d thresh hth, ?_, ?_⟩
  · intro hemp
    have hc : dets.length = 0 ∨ d.length = 0 := by
      rcases hemp with h | h
      · exact Or.inl (by simp [h])
      · exact Or.inr (by simp [h])
    unfold byteMatch
    rw [if_pos hc]
  · intro m ud ut h
    exact byteMatch_accepted dets d thresh m ud ut h

/-- C3, counterexample to the claim as stated: with `matchThresh = 0` (a value
the configuration range `[0,1]` admits) and one detection and one track with
IoU 0, the greedy algorithm of the claim accepts the zero-IoU pair (`specMatch`
returns the match `(0, 7)`), but `_match` raises ValueError from
`unmatched_dets.remove(-1)` instead of returning anything. -/
theorem match_pass_zero_thresh_counterexample :
    byteMatch [⟨⟨0, 0, 1, 1⟩, 9/10⟩] [(7, ⟨⟨5, 5, 6, 6⟩, 1, 0, 1, 1⟩)] 0 =
      .error "ValueError: list.remove(x): x not in list" ∧
    specMatch [⟨⟨0, 0, 1, 1⟩, 9/10⟩] [(7, ⟨⟨5, 5, 6, 6⟩, 1, 0, 1, 1⟩)] 0 =
      ([(0, 7)], [], []) := by
  constructor
  · have hs : scanMax (trackIoU [⟨⟨0, 0, 1, 1⟩, 9/10⟩] [(7, ⟨⟨5, 5, 6, 6⟩, (1:ℚ), 0, 1, 1⟩)])
        (List.range 1) [7] = (0, -1, -1) := by
      norm_num [scanMax, trackIoU, dictLookup, calculate_iou, unionArea, interArea,
        calculate_bbox_area, List.range_succ]
    norm_num [byteMatch, dictKeys, matchLoop, hs, removeE, negOne_negSucc]
    rfl
  · have hs : specScan (trackIoU [⟨⟨0, 0, 1, 1⟩, 9/10⟩] [(7, ⟨⟨5, 5, 6, 6⟩, (1:ℚ), 0, 1, 1⟩)])
        [0] [7] = some (0, 7, 0) := by
      norm_num [specScan, trackIoU, dictLookup, calculate_iou, unionArea, interArea,
        calculate_bbox_area, List.range_succ]
    norm_num [specMatch, dictKeys, specGreedy, hs, List.range_succ]

theorem match_pass_greedy_witness :
    (0 : ℚ) < 7/10 ∧
    byteMatch [] [] (7/10) = .ok (specMatch [] [] (7/10)) :=
  ⟨by norm_num, (match_pass_greedy [] [] (7/10) (by norm_num)).1⟩

/-! ### Tracker update lemmas (C1, C2, C5) -/

theorem update_empty_ok (s : TrackerState) :
    update s [] = .ok ([], { s with
      frame_count := s.frame_count + 1
      tracks := removeDead s.track_buffer (ageAll s.tracks) }) := rfl

theorem update_ok_elim (s : TrackerState) (dets : List Det) (res : List (Box × ℕ))
    (s1 : TrackerState) (hne : ¬ dets.length = 0)
    (h : update s dets = .ok (res, s1)) :
    ∃ matched ud ut matchedLow ut2,
      byteMatch (dets.filter (fun d => s.track_thresh ≤ d.conf)) s.tracks s.match_thresh
        = .ok (matched, ud, ut) ∧
      secondPass (dets.filter (fun d => d.conf < s.track_thresh))
        (applyMatches (dets.filter (fun d => s.track_thresh ≤ d.conf)) matched s.tracks)
        ut s.match_thresh = .ok (matchedLow, ut2) ∧
      s1.tracks = removeDead s.track_buffer
        (ageTracks ut2
          ((applyMatches (dets.filter (fun d => d.conf < s.track_thresh)) matchedLow
             (applyMatches (dets.filter (fun d => s.track_thresh ≤ d.conf)) matched s.tracks)) ++
           (createTracks (dets.filter (fun d => s.track_thresh ≤ d.conf)) (s.frame_count + 1)
             ud s.next_id).1)) ∧
      s1.next_id = (createTracks (dets.filter (fun d => s.track_thresh ≤ d.conf))
        (s.frame_count + 1) ud s.next_id).2 ∧
      s1.frame_count = s.frame_count + 1 ∧
      s1.track_thresh = s.track_thresh ∧ s1.track_buffer = s.track_buffer ∧
      s1.match_thresh = s.match_thresh ∧
      res = activeResults s1.tracks := by
  simp only [update, if_neg hne] at h
  cases hbm : byteMatch (dets.filter (fun d => s.track_thresh ≤ d.conf)) s.tracks
      s.match_thresh with
  | error e => rw [hbm] at h; exact absurd h (by simp)
  | ok trip =>
    obtain ⟨matched, ud, ut⟩ := trip
    rw [hbm] at h
    dsimp only at h
    cases hsp : secondPass (dets.filter (fun d => d.conf < s.track_thresh))
        (applyMatches (dets.filter (fun d => s.track_thresh ≤ d.conf)) matched s.tracks)
        ut s.match_thresh with
    | error e => rw [hsp] at h; exact absurd h (by simp)
    | ok pr =>
      obtain ⟨matchedLow, ut2⟩ := pr
      rw [hsp] at h
      dsimp only at h
      simp only [Except.ok.injEq, Prod.mk.injEq] at h
      obtain ⟨hres, hs1⟩ := h
      refine ⟨matched, ud, ut, matchedLow, ut2, rfl, hsp, ?_, ?_, ?_, ?_, ?_, ?_, ?_⟩
      all_goals rw [← hs1]
      rw [← hres]

theorem update_config (s : TrackerState) (dets : List Det) (res : List (Box × ℕ))
    (s1 : TrackerState) (h : update s dets = .ok (res, s1)) :
    s1.track_thresh = s.track_thresh ∧ s1.track_buffer = s.track_buffer ∧
    s1.match_thresh = s.match_thresh ∧ s1.frame_count = s.frame_count + 1 := by
  by_cases hne : dets.length = 0
  · have hd : dets = [] := List.eq_nil_of_length_eq_zero hne
    subst hd
    rw [update_empty_ok s] at h
    simp only [Except.ok.injEq, Prod.mk.injEq] at h
    rw [← h.2]
    exact ⟨rfl, rfl, rfl, rfl⟩
  · obtain ⟨-, -, -, -, -, -, -, -, -, hfc, hth, hbuf, hmth, -⟩ :=
      update_ok_elim s dets res s1 hne h
    exact ⟨hth, hbuf, hmth, hfc⟩

theorem split_mem (L A B : List ℕ) (hsplit : (↑L : Multiset ℕ) = ↑A + ↑B)
    (i : ℕ) (hi : i ∈ L) : i ∈ A ∨ i ∈ B := by
  have hm : i ∈ (↑A + ↑B : Multiset ℕ) := by
    rw [← hsplit]
    exact_mod_cast hi
  rcases Multiset.mem_add.mp hm with hm | hm
  · exact Or.inl (by exact_mod_cast hm)
  · exact Or.inr (by exact_mod_cast hm)

theorem split_sub (L A B : List ℕ) (hsplit : (↑L : Multiset ℕ) = ↑A + ↑B) :
    (∀ i ∈ A, i ∈ L) ∧ ∀ i ∈ B, i ∈ L := by
  constructor
  · intro i hi
    have hm : i ∈ (↑A + ↑B : Multiset ℕ) := Multiset.mem_add.mpr (Or.inl (by exact_mod_cast hi))
    rw [← hsplit] at hm
    exact_mod_cast hm
  · intro i hi
    have hm : i ∈ (↑A + ↑B : Multiset ℕ) := Multiset.mem_add.mpr (Or.inr (by exact_mod_cast hi))
    rw [← hsplit] at hm
    exact_mod_cast hm

theorem split_not_both (L A B : List ℕ) (hnd : L.Nodup)
    (hsplit : (↑L : Multiset ℕ) = ↑A + ↑B) (i : ℕ) (ha : i ∈ A) (hb : i ∈ B) :
    False := by
  have h1 : 1 ≤ Multiset.count i (↑A : Multiset ℕ) :=
    Multiset.one_le_count_iff_mem.mpr (by exact_mod_cast ha)
  have h2 : 1 ≤ Multiset.count i (↑B : Multiset ℕ) :=
    Multiset.one_le_count_iff_mem.mpr (by exact_mod_cast hb)
  have h3 : Multiset.count i (↑L : Multiset ℕ) ≤ 1 :=
    Multiset.nodup_iff_count_le_one.mp (by exact_mod_cast hnd) i
  rw [hsplit, Multiset.count_add] at h3
  omega

theorem tracks3_keys (high low : List Det) (matched matchedLow : List (ℕ × ℕ))
    (d : List (ℕ × Track)) (fc nid : ℕ) (ud : List ℕ) :
    dictKeys (applyMatches low matchedLow (applyMatches high matched d) ++
      (createTracks high fc ud nid).1) = dictKeys d ++ List.range' nid ud.length := by
  have h0 : ∀ (a b : List (ℕ × Track)), dictKeys (a ++ b) = dictKeys a ++ dictKeys b := by
    intro a b
    simp [dictKeys]
  rw [h0, applyMatches_keys, applyMatches_keys, createTracks_keys]

theorem keys_append_nodup (K : List ℕ) (nid len : ℕ) (hnd : K.Nodup)
    (hbound : ∀ k ∈ K, k < nid) : (K ++ List.range' nid len).Nodup := by
  refine List.Nodup.append hnd (List.nodup_range' nid len) ?_
  intro a ha hb
  have h1 := hbound a ha
  have h2 := (List.mem_range'_1.mp hb).1
  omega

theorem removeDead_keys_sublist (buffer : ℤ) (d : List (ℕ × Track)) :
    (dictKeys (removeDead buffer d)).Sublist (dictKeys d) :=
  (removeDead_sublist buffer d).map Prod.fst

theorem update_keys_next (s : TrackerState) (dets : List Det) (res : List (Box × ℕ))
    (s1 : TrackerState) (h : update s dets = .ok (res, s1)) :
    s.next_id ≤ s1.next_id ∧
    (∀ k ∈ dictKeys s1.tracks, k ∈ dictKeys s.tracks ∨ s.next_id ≤ k) ∧
    (∀ p ∈ res, p.2 ∈ dictKeys s1.tracks) := by
  by_cases hne : dets.length = 0
  · have hd : dets = [] := List.eq_nil_of_length_eq_zero hne
    subst hd
    rw [update_empty_ok s] at h
    simp only [Except.ok.injEq, Prod.mk.injEq] at h
    obtain ⟨hres, hs1⟩ := h
    refine ⟨by rw [← hs1], ?_, ?_⟩
    · intro k hk
      rw [← hs1] at hk
      have hk2 := (removeDead_keys_sublist s.track_buffer (ageAll s.tracks)).subset hk
      rw [ageAll_keys] at hk2
      exact Or.inl hk2
    · intro p hp
      rw [← hres] at hp
      exact absurd hp (List.not_mem_nil p)
  · obtain ⟨matched, ud, ut, matchedLow, ut2, hbm, hsp, htr, hnid, hfc, -, -, -, hres⟩ :=
      update_ok_elim s dets res s1 hne h
    refine ⟨?_, ?_, ?_⟩
    · rw [hnid, createTracks_snd]
      exact Nat.le_add_right _ _
    · intro k hk
      rw [htr] at hk
      have hk2 := (removeDead_keys_sublist s.track_buffer _).subset hk
      rw [ageTracks_keys, tracks3_keys] at hk2
      rcases List.mem_append.mp hk2 with hk3 | hk3
      · exact Or.inl hk3
      · exact Or.inr (List.mem_range'_1.mp hk3).1
    · intro p hp
      rw [hres] at hp
      obtain ⟨b, i⟩ := p
      obtain ⟨u, hu, -, -⟩ := (activeResults_mem s1.tracks b i).mp hp
      exact (mem_dictKeys _ _).mpr ⟨u, hu⟩

theorem update_inv (s : TrackerState) (dets : List Det) (res : List (Box × ℕ))
    (s1 : TrackerState) (hInv : TrackerInv s) (h : update s dets = .ok (res, s1)) :
    TrackerInv s1 := by
  by_cases hne : dets.length = 0
  · have hd : dets = [] := List.eq_nil_of_length_eq_zero hne
    subst hd
    rw [update_empty_ok s] at h
    simp only [Except.ok.injEq, Prod.mk.injEq] at h
    obtain ⟨-, hs1⟩ := h
    have hsub : (dictKeys (removeDead s.track_buffer (ageAll s.tracks))).Sublist
        (dictKeys s.tracks) := by
      rw [← ageAll_keys s.tracks]
      exact removeDead_keys_sublist _ _
    constructor
    · rw [← hs1]
      exact hInv.1.sublist hsub
    · intro k hk
      rw [← hs1] at hk ⊢
      exact hInv.2 k (hsub.subset hk)
  · obtain ⟨matched, ud, ut, matchedLow, ut2, hbm, hsp, htr, hnid, hfc, -, -, -, -⟩ :=
      update_ok_elim s dets res s1 hne h
    have hsub : (dictKeys s1.tracks).Sublist
        (dictKeys s.tracks ++ List.range' s.next_id ud.length) := by
      rw [htr]
      have h1 := removeDead_keys_sublist s.track_buffer
        (ageTracks ut2
          (applyMatches (dets.filter (fun d => d.conf < s.track_thresh)) matchedLow
             (applyMatches (dets.filter (fun d => s.track_thresh ≤ d.conf)) matched s.tracks) ++
           (createTracks (dets.filter (fun d => s.track_thresh ≤ d.conf)) (s.frame_count + 1)
             ud s.next_id).1))
      rw [ageTracks_keys, tracks3_keys] at h1
      exact h1
    constructor
    · exact (keys_append_nodup _ _ _ hInv.1 hInv.2).sublist hsub
    · intro k hk
      have hk2 := hsub.subset hk
      rw [hnid, createTracks_snd]
      rcases List.mem_append.mp hk2 with hk3 | hk3
      · have := hInv.2 k hk3
        omega
      · have := (List.mem_range'_1.mp hk3).2
        omega

theorem update_trichotomy (s : TrackerState) (dets : List Det) (res : List (Box × ℕ))
    (s1 : TrackerState) (hInv : TrackerInv s) (hbuf : 0 ≤ s.track_buffer)
    (h : update s dets = .ok (res, s1)) :
    ∀ i t, (i, t) ∈ s.tracks →
      (∃ u, (i, u) ∈ s1.tracks ∧ u.age = 0) ∨
      ((t.age + 1 : ℤ) ≤ s.track_buffer ∧ (i, { t with age := t.age + 1 }) ∈ s1.tracks) ∨
      ((t.age + 1 : ℤ) > s.track_buffer ∧ i ∉ dictKeys s1.tracks) := by
  intro i t hit
  by_cases hne : dets.length = 0
  · have hd : dets = [] := List.eq_nil_of_length_eq_zero hne
    subst hd
    rw [update_empty_ok s] at h
    simp only [Except.ok.injEq, Prod.mk.injEq] at h
    obtain ⟨-, hs1⟩ := h
    by_cases hage : (t.age + 1 : ℤ) ≤ s.track_buffer
    · refine Or.inr (Or.inl ⟨hage, ?_⟩)
      rw [← hs1]
      refine (removeDead_mem _ _ _ _).mpr ⟨(ageAll_mem s.tracks i _).mpr ⟨t, hit, rfl⟩, ?_⟩
      push_cast
      exact_mod_cast hage
    · refine Or.inr (Or.inr ⟨lt_of_not_le hage, ?_⟩)
      rw [← hs1]
      intro hk
      obtain ⟨x, hx⟩ := (mem_dictKeys _ _).mp hk
      obtain ⟨hx1, hx2⟩ := (removeDead_mem _ _ _ _).mp hx
      obtain ⟨u, hu, hxu⟩ := (ageAll_mem s.tracks i x).mp hx1
      have huts : u = t := dict_unique s.tracks hInv.1 i u t hu hit
      rw [hxu, huts] at hx2
      simp only at hx2
      apply hage
      push_cast at hx2 ⊢
      exact_mod_cast hx2
  · obtain ⟨matched, ud, ut, matchedLow, ut2, hbm, hsp, htr, hnid, hfc, -, -, -, -⟩ :=
      update_ok_elim s dets res s1 hne h
    have hkeysplit := (byteMatch_parts _ _ _ _ _ _ hbm).2.1
    have hutsub := (byteMatch_parts _ _ _ _ _ _ hbm).2.2.2
    have hutsplit := (secondPass_parts _ _ _ _ _ _ hsp).1
    have hut2sub := (secondPass_parts _ _ _ _ _ _ hsp).2
    have hutnd : ut.Nodup := hInv.1.sublist hutsub
    have hut2nd : ut2.Nodup := hutnd.sublist hut2sub
    have hikey : i ∈ dictKeys s.tracks := (mem_dictKeys _ _).mpr ⟨t, hit⟩
    have hnd4 : (dictKeys (ageTracks ut2
        (applyMatches (dets.filter (fun d => d.conf < s.track_thresh)) matchedLow
           (applyMatches (dets.filter (fun d => s.track_thresh ≤ d.conf)) matched s.tracks) ++
         (createTracks (dets.filter (fun d => s.track_thresh ≤ d.conf)) (s.frame_count + 1)
           ud s.next_id).1))).Nodup := by
      rw [ageTracks_keys, tracks3_keys]
      exact keys_append_nodup _ _ _ hInv.1 hInv.2
    rcases split_mem _ _ _ hkeysplit i hikey with hiM | hiU
    · -- matched in the first pass: reported with age 0
      left
      have h1 := applyMatches_age_zero (dets.filter (fun d => s.track_thresh ≤ d.conf))
        matched s.tracks i hiM hikey
      have hiNotUt : i ∉ ut := fun hc => split_not_both _ _ _ hInv.1 hkeysplit i hiM hc
      have hiNotML : i ∉ matchedLow.map Prod.snd := fun hc =>
        hiNotUt ((split_sub _ _ _ hutsplit).1 i hc)
      have hiNotUt2 : i ∉ ut2 := fun hc => hiNotUt ((split_sub _ _ _ hutsplit).2 i hc)
      obtain ⟨u, hu, hu0⟩ := h1
      have h2 : (i, u) ∈ applyMatches (dets.filter (fun d => d.conf < s.track_thresh))
          matchedLow (applyMatches (dets.filter (fun d => s.track_thresh ≤ d.conf))
            matched s.tracks) :=
        (applyMatches_mem_notin _ _ _ i u hiNotML).mpr hu
      have h3 := List.mem_append_left
        ((createTracks (dets.filter (fun d => s.track_thresh ≤ d.conf)) (s.frame_count + 1)
          ud s.next_id).1) h2
      have h4 := (ageTracks_mem_notin ut2 _ i u hiNotUt2).mpr h3
      refine ⟨u, ?_, hu0⟩
      rw [htr]
      refine (removeDead_mem _ _ _ _).mpr ⟨h4, ?_⟩
      rw [hu0]
      exact_mod_cast hbuf
    · -- unmatched in the first pass
      have hiNotM : i ∉ matched.map Prod.snd := fun hc =>
        split_not_both _ _ _ hInv.1 hkeysplit i hc hiU
      have h1 : (i, t) ∈ applyMatches (dets.filter (fun d => s.track_thresh ≤ d.conf))
          matched s.tracks := (applyMatches_mem_notin _ _ _ i t hiNotM).mpr hit
      rcases split_mem _ _ _ hutsplit i hiU with hiML | hiU2
      · -- matched in the second pass: reported with age 0
        left
        have hkey1 : i ∈ dictKeys (applyMatches
            (dets.filter (fun d => s.track_thresh ≤ d.conf)) matched s.tracks) := by
          rw [applyMatches_keys]
          exact hikey
        obtain ⟨u, hu, hu0⟩ := applyMatches_age_zero
          (dets.filter (fun d => d.conf < s.track_thresh)) matchedLow _ i hiML hkey1
        have hiNotUt2 : i ∉ ut2 := fun hc => split_not_both _ _ _ hutnd hutsplit i hiML hc
        have h3 := List.mem_append_left
          ((createTracks (dets.filter (fun d => s.track_thresh ≤ d.conf)) (s.frame_count + 1)
            ud s.next_id).1) hu
        have h4 := (ageTracks_mem_notin ut2 _ i u hiNotUt2).mpr h3
        refine ⟨u, ?_, hu0⟩
        rw [htr]
        refine (removeDead_mem _ _ _ _).mpr ⟨h4, ?_⟩
        rw [hu0]
        exact_mod_cast hbuf
      · -- unmatched after both passes: aged by one
        have hiNotML : i ∉ matchedLow.map Prod.snd := fun hc =>
          split_not_both _ _ _ hutnd hutsplit i hc hiU2
        have h2 : (i, t) ∈ applyMatches (dets.filter (fun d => d.conf < s.track_thresh))
            matchedLow (applyMatches (dets.filter (fun d => s.track_thresh ≤ d.conf))
              matched s.tracks) := (applyMatches_mem_notin _ _ _ i t hiNotML).mpr h1
        have h3 := List.mem_append_left
          ((createTracks (dets.filter (fun d => s.track_thresh ≤ d.conf)) (s.frame_count + 1)
            ud s.next_id).1) h2
        have h4 := ageTracks_mem ut2 _ i t hut2nd hiU2 h3
        by_cases hage : (t.age + 1 : ℤ) ≤ s.track_buffer
        · refine Or.inr (Or.inl ⟨hage, ?_⟩)
          rw [htr]
          refine (removeDead_mem _ _ _ _).mpr ⟨h4, ?_⟩
          push_cast
          exact_mod_cast hage
        · refine Or.inr (Or.inr ⟨lt_of_not_le hage, ?_⟩)
          rw [htr]
          intro hk
          obtain ⟨x, hx⟩ := (mem_dictKeys _ _).mp hk
          obtain ⟨hx1, hx2⟩ := (removeDead_mem _ _ _ _).mp hx
          have hxeq : x = { t with age := t.age + 1 } := dict_unique _ hnd4 i x _ hx1 h4
          rw [hxeq] at hx2
          simp only at hx2
          apply hage
          push_cast at hx2 ⊢
          exact_mod_cast hx2

theorem runUpdates_dead (d : ℕ) :
    ∀ (frames : List (List Det)) (s : TrackerState) (outs : List (List (Box × ℕ)))
      (s2 : TrackerState), d ∉ dictKeys s.tracks → d < s.next_id →
    runUpdates s frames = .ok (outs, s2) →
    d ∉ dictKeys s2.tracks ∧ d < s2.next_id ∧ ∀ out ∈ outs, ∀ p ∈ out, p.2 ≠ d := by
  intro frames
  induction frames with
  | nil =>
    intro s outs s2 h1 h2 h3
    simp only [runUpdates, Except.ok.injEq, Prod.mk.injEq] at h3
    obtain ⟨ho, hs⟩ := h3
    subst hs
    refine ⟨h1, h2, ?_⟩
    rw [← ho]
    intro out hout
    exact absurd hout (List.not_mem_nil out)
  | cons f rest ih =>
    intro s outs s2 h1 h2 h3
    simp only [runUpdates] at h3
    cases hu : update s f with
    | error e => rw [hu] at h3; exact absurd h3 (by simp)
    | ok pr =>
      obtain ⟨r, s1⟩ := pr
      rw [hu] at h3
      dsimp only at h3
      cases hrest : runUpdates s1 rest with
      | error e => rw [hrest] at h3; exact absurd h3 (by simp)
      | ok pr2 =>
        obtain ⟨rs, s3⟩ := pr2
        rw [hrest] at h3
        simp only [Except.ok.injEq, Prod.mk.injEq] at h3
        obtain ⟨ho, hs⟩ := h3
        subst hs
        obtain ⟨hnle, hksub, hres⟩ := update_keys_next s f r s1 hu
        have h1n : d ∉ dictKeys s1.tracks := by
          intro hc
          rcases hksub d hc with hc2 | hc2
          · exact h1 hc2
          · omega
        have h2n : d < s1.next_id := lt_of_lt_of_le h2 hnle
        obtain ⟨ha, hb, hc⟩ := ih s1 rs s3 h1n h2n hrest
        refine ⟨ha, hb, ?_⟩
        rw [← ho]
        intro out hout p hp
        rcases List.mem_cons.mp hout with hout | hout
        · subst hout
          intro hpd
          exact h1n (hpd ▸ hres p hp)
        · exact hc out hout p hp

theorem runUpdates_empty_frames :
    ∀ (k : ℕ) (s : TrackerState) (resR : List (List (Box × ℕ))) (sk : TrackerState),
    TrackerInv s →
    runUpdates s (List.replicate k []) = .ok (resR, sk) →
    ∀ i t, (i, t) ∈ s.tracks → (t.age : ℤ) ≤ s.track_buffer →
      ((t.age + k : ℤ) ≤ s.track_buffer → (i, { t with age := t.age + k }) ∈ sk.tracks) ∧
      ((t.age + k : ℤ) > s.track_buffer → i ∉ dictKeys sk.tracks) := by
  intro k
  induction k with
  | zero =>
    intro s resR sk hInv h i t hit hage
    simp only [List.replicate, runUpdates, Except.ok.injEq, Prod.mk.injEq] at h
    obtain ⟨-, hs⟩ := h
    subst hs
    constructor
    · intro _
      simpa using hit
    · intro hgt
      push_cast at hgt
      omega
  | succ k ih =>
    intro s resR sk hInv h i t hit hage
    rw [List.replicate_succ] at h
    simp only [runUpdates] at h
    rw [update_empty_ok s] at h
    dsimp only at h
    cases hrest : runUpdates { s with
        frame_count := s.frame_count + 1
        tracks := removeDead s.track_buffer (ageAll s.tracks) } (List.replicate k []) with
    | error e => rw [hrest] at h; exact absurd h (by simp)
    | ok pr =>
      obtain ⟨rs, s3⟩ := pr
      rw [hrest] at h
      simp only [Except.ok.injEq, Prod.mk.injEq] at h
      obtain ⟨-, hs⟩ := h
      subst hs
      have hInv1 : TrackerInv { s with
          frame_count := s.frame_count + 1
          tracks := removeDead s.track_buffer (ageAll s.tracks) } :=
        update_inv s [] [] _ hInv (update_empty_ok s)
      by_cases hc : (t.age + 1 : ℤ) ≤ s.track_buffer
      · have hmem1 : (i, { t with age := t.age + 1 }) ∈
            removeDead s.track_buffer (ageAll s.tracks) := by
          refine (removeDead_mem _ _ _ _).mpr ⟨(ageAll_mem s.tracks i _).mpr ⟨t, hit, rfl⟩, ?_⟩
          push_cast
          exact_mod_cast hc
        have hstep := ih _ rs s3 hInv1 hrest i { t with age := t.age + 1 } hmem1
          (by simpa using hc)
        constructor
        · intro hle
          have h1 := hstep.1 (by push_cast at hle ⊢; omega)
          have h2 : ({ t with age := t.age + 1 } : Track).age + k = t.age + (k + 1) := by
            simp only
            omega
          rwa [h2] at h1
        · intro hgt
          exact hstep.2 (by simp only; push_cast at hgt ⊢; omega)
      · have hnot1 : i ∉ dictKeys (removeDead s.track_buffer (ageAll s.tracks)) := by
          intro hk
          obtain ⟨x, hx⟩ := (mem_dictKeys _ _).mp hk
          obtain ⟨hx1, hx2⟩ := (removeDead_mem _ _ _ _).mp hx
          obtain ⟨u, hu, hxu⟩ := (ageAll_mem s.tracks i x).mp hx1
          have huts : u = t := dict_unique s.tracks hInv.1 i u t hu hit
          rw [hxu, huts] at hx2
          simp only at hx2
          apply hc
          push_cast at hx2 ⊢
          exact_mod_cast hx2
        have hlt : i < s.next_id := hInv.2 i ((mem_dictKeys _ _).mpr ⟨t, hit⟩)
        have hdead := runUpdates_dead i (List.replicate k [])
          { s with
            frame_count := s.frame_count + 1
            tracks := removeDead s.track_buffer (ageAll s.tracks) } rs s3 hnot1 hlt hrest
        constructor
        · intro hle
          push_cast at hle
          omega
        · intro _
          exact hdead.1

/-- C1: if the detection list is empty, `update` ages every existing track by
one, deletes exactly the tracks whose age then exceeds `track_buffer`, and
returns the empty list; and in every case the returned list contains `(box,
id)` exactly for the tracks whose age is 0 after the call — tracks that were
merely aged are never reported. -/
theorem update_empty_and_active (s : TrackerState) (dets : List Det)
    (res : List (Box × ℕ)) (s1 : TrackerState) (hInv : TrackerInv s)
    (h : update s dets = .ok (res, s1)) :
    (dets = [] →
      res = [] ∧
      (∀ i t, (i, t) ∈ s.tracks →
        (((t.age + 1 : ℤ) ≤ s.track_buffer → (i, { t with age := t.age + 1 }) ∈ s1.tracks) ∧
         ((t.age + 1 : ℤ) > s.track_buffer → i ∉ dictKeys s1.tracks))) ∧
      (∀ i u, (i, u) ∈ s1.tracks →
        ∃ t, (i, t) ∈ s.tracks ∧ u = { t with age := t.age + 1 } ∧
          (u.age : ℤ) ≤ s.track_buffer)) ∧
    (∀ b i, (b, i) ∈ res ↔ ∃ t, (i, t) ∈ s1.tracks ∧ t.age = 0 ∧ t.box = b) := by
  constructor
  · intro hd
    subst hd
    rw [update_empty_ok s] at h
    simp only [Except.ok.injEq, Prod.mk.injEq] at h
    obtain ⟨hres, hs1⟩ := h
    refine ⟨hres.symm, ?_, ?_⟩
    · intro i t hit
      constructor
      · intro hage
        rw [← hs1]
        refine (removeDead_mem _ _ _ _).mpr ⟨(ageAll_mem s.tracks i _).mpr ⟨t, hit, rfl⟩, ?_⟩
        push_cast
        exact_mod_cast hage
      · intro hage
        rw [← hs1]
        intro hk
        obtain ⟨x, hx⟩ := (mem_dictKeys _ _).mp hk
        obtain ⟨hx1, hx2⟩ := (removeDead_mem _ _ _ _).mp hx
        obtain ⟨u, hu, hxu⟩ := (ageAll_mem s.tracks i x).mp hx1
        have huts : u = t := dict_unique s.tracks hInv.1 i u t hu hit
        rw [hxu, huts] at hx2
        simp only at hx2
        have := lt_of_lt_of_le hage (by push_cast at hx2 ⊢; exact_mod_cast hx2)
        exact absurd this (lt_irrefl _)
    · intro i u hu
      rw [← hs1] at hu
      obtain ⟨hu1, hu2⟩ := (removeDead_mem _ _ _ _).mp hu
      obtain ⟨t, hit, hut⟩ := (ageAll_mem s.tracks i u).mp hu1
      exact ⟨t, hit, hut, hu2⟩
  · by_cases hne : dets.length = 0
    · have hd : dets = [] := List.eq_nil_of_length_eq_zero hne
      subst hd
      rw [update_empty_ok s] at h
      simp only [Except.ok.injEq, Prod.mk.injEq] at h
      obtain ⟨hres, hs1⟩ := h
      intro b i
      rw [← hres]
      simp only [List.not_mem_nil, false_iff]
      rintro ⟨t, ht, hage, -⟩
      rw [← hs1] at ht
      obtain ⟨ht1, -⟩ := (removeDead_mem _ _ _ _).mp ht
      obtain ⟨u, -, htu⟩ := (ageAll_mem s.tracks i t).mp ht1
      rw [htu] at hage
      simp only at hage
      exact Nat.succ_ne_zero u.age hage
    · obtain ⟨-, -, -, -, -, -, -, -, -, -, -, -, -, hres⟩ :=
        update_ok_elim s dets res s1 hne h
      intro b i
      rw [hres]
      exact activeResults_mem s1.tracks b i

theorem update_empty_and_active_witness :
    TrackerInv (ByteTracker.init (1/2) 2 (7/10)) ∧
    (∀ b i, (b, i) ∈ ([] : List (Box × ℕ)) ↔
      ∃ t, (i, t) ∈ (⟨1/2, 2, 7/10, [], 1, 1⟩ : TrackerState).tracks ∧
        t.age = 0 ∧ t.box = b) :=
  ⟨by decide, (update_empty_and_active (ByteTracker.init (1/2) 2 (7/10)) [] []
    (⟨1/2, 2, 7/10, [], 1, 1⟩ : TrackerState) (by decide) rfl).2⟩

/-- C2: across update calls (given the dict invariant and a non-negative
buffer, both holding for any freshly constructed tracker): the invariant is
preserved; `next_id` is monotone; every live id is either an old id or a
freshly assigned one at least `next_id` (so ids are unique, monotonically
assigned and never reused); each existing track is either matched this frame
(present with age 0), or aged by one and kept exactly when its new age does not
exceed `track_buffer`; reported ids are live ids; a destroyed id (below
`next_id` and not live) never reappears in the state or in any later output of
any continuation of the run; and over `k` consecutive detection-free frames a
track with age `a ≤ track_buffer` survives (with age `a + k`) exactly while
`a + k ≤ track_buffer`, so a track unmatched for exactly `track_buffer` frames
is still present and one unmatched for `track_buffer + 1` frames is destroyed. -/
theorem tracker_lifecycle (s : TrackerState) (dets : List Det)
    (res : List (Box × ℕ)) (s1 : TrackerState) (hInv : TrackerInv s)
    (hbuf : 0 ≤ s.track_buffer) (h : update s dets = .ok (res, s1)) :
    TrackerInv s1 ∧
    s.next_id ≤ s1.next_id ∧
    (∀ k ∈ dictKeys s1.tracks, k ∈ dictKeys s.tracks ∨ s.next_id ≤ k) ∧
    (∀ i t, (i, t) ∈ s.tracks →
      (∃ u, (i, u) ∈ s1.tracks ∧ u.age = 0) ∨
      ((t.age + 1 : ℤ) ≤ s.track_buffer ∧ (i, { t with age := t.age + 1 }) ∈ s1.tracks) ∨
      ((t.age + 1 : ℤ) > s.track_buffer ∧ i ∉ dictKeys s1.tracks)) ∧
    (∀ p ∈ res, p.2 ∈ dictKeys s1.tracks) ∧
    (∀ d2, d2 ∉ dictKeys s.tracks → d2 < s.next_id →
      ∀ frames outs s2, runUpdates s frames = .ok (outs, s2) →
        d2 ∉ dictKeys s2.tracks ∧ d2 < s2.next_id ∧
          ∀ out ∈ outs, ∀ p ∈ out, p.2 ≠ d2) ∧
    (∀ k resR sk, runUpdates s (List.replicate k []) = .ok (resR, sk) →
      ∀ i t, (i, t) ∈ s.tracks → (t.age : ℤ) ≤ s.track_buffer →
        ((t.age + k : ℤ) ≤ s.track_buffer →
          (i, { t with age := t.age + k }) ∈ sk.tracks) ∧
        ((t.age + k : ℤ) > s.track_buffer → i ∉ dictKeys sk.tracks)) := by
  obtain ⟨hnle, hksub, hres⟩ := update_keys_next s dets res s1 h
  refine ⟨update_inv s dets res s1 hInv h, hnle, hksub,
    update_trichotomy s dets res s1 hInv hbuf h, hres, ?_, ?_⟩
  · intro d2 hd2 hlt frames outs s2 hrun
    exact runUpdates_dead d2 frames s outs s2 hd2 hlt hrun
  · intro k resR sk hrun i t hit hage
    exact runUpdates_empty_frames k s resR sk hInv hrun i t hit hage

theorem tracker_lifecycle_witness :
    (TrackerInv (ByteTracker.init (1/2) 3 (7/10)) ∧
      (0 : ℤ) ≤ (ByteTracker.init (1/2) 3 (7/10)).track_buffer) ∧
    TrackerInv (⟨1/2, 3, 7/10, [], 1, 1⟩ : TrackerState) :=
  ⟨⟨by decide, by decide⟩,
    (tracker_lifecycle (ByteTracker.init (1/2) 3 (7/10)) [] []
      (⟨1/2, 3, 7/10, [], 1, 1⟩ : TrackerState) (by decide) (by decide) rfl).1⟩

/-- C5: for a non-empty detection list, detections are partitioned into high
(`confidence >= trackThresh`) and low (`confidence < trackThresh`) preserving
relative order (both partitions are sublists of the input, with the stated
membership conditions); a new track is created for each high detection left
unmatched by the first matching pass and for nothing else — `next_id` advances
by exactly the number of unmatched high detections, so low-confidence
detections never create tracks — and the `j`-th new track carries
`id = next_id + j`, the box and confidence of the corresponding unmatched high
detection, `age = 0`, `hits = 1` and `start_frame` equal to the current frame
count. -/
theorem update_new_tracks (s : TrackerState) (dets : List Det)
    (res : List (Box × ℕ)) (s1 : TrackerState)
    (matched : List (ℕ × ℕ)) (ud ut : List ℕ)
    (hne : dets ≠ []) (hInv : TrackerInv s) (hbuf : 0 ≤ s.track_buffer)
    (h : update s dets = .ok (res, s1))
    (hbm : byteMatch (dets.filter (fun d => s.track_thresh ≤ d.conf)) s.tracks
      s.match_thresh = .ok (matched, ud, ut)) :
    (dets.filter (fun d => s.track_thresh ≤ d.conf)).Sublist dets ∧
    (dets.filter (fun d => d.conf < s.track_thresh)).Sublist dets ∧
    (∀ d2 ∈ dets,
      (d2 ∈ dets.filter (fun d => s.track_thresh ≤ d.conf) ↔ s.track_thresh ≤ d2.conf) ∧
      (d2 ∈ dets.filter (fun d => d.conf < s.track_thresh) ↔ d2.conf < s.track_thresh)) ∧
    s1.next_id = s.next_id + ud.length ∧
    (∀ j, j < ud.length →
      (s.next_id + j,
        ⟨((dets.filter (fun d => s.track_thresh ≤ d.conf)).getD (ud.getD j 0) default).box,
         ((dets.filter (fun d => s.track_thresh ≤ d.conf)).getD (ud.getD j 0) default).conf,
         0, 1, s.frame_count + 1⟩) ∈ s1.tracks) := by
  have hne2 : ¬ dets.length = 0 := fun hc => hne (List.eq_nil_of_length_eq_zero hc)
  obtain ⟨matched2, ud2, ut2a, matchedLow, ut2, hbm2, hsp, htr, hnid, -, -, -, -, -⟩ :=
    update_ok_elim s dets res s1 hne2 h
  rw [hbm] at hbm2
  simp only [Except.ok.injEq, Prod.mk.injEq] at hbm2
  obtain ⟨hm2, hu2, ht2⟩ := hbm2
  subst hm2
  subst hu2
  subst ht2
  have hutsub := (byteMatch_parts _ _ _ _ _ _ hbm).2.2.2
  have hut2sub := (secondPass_parts _ _ _ _ _ _ hsp).2
  refine ⟨List.filter_sublist dets, List.filter_sublist dets, ?_, ?_, ?_⟩
  · intro d2 hd2
    constructor
    · simp [List.mem_filter, hd2]
    · simp [List.mem_filter, hd2]
  · rw [hnid, createTracks_snd]
  · intro j hj
    have hcm := createTracks_mem (dets.filter (fun d => s.track_thresh ≤ d.conf))
      (s.frame_count + 1) ud s.next_id j hj
    have h3 : (s.next_id + j,
        (⟨((dets.filter (fun d => s.track_thresh ≤ d.conf)).getD (ud.getD j 0) default).box,
          ((dets.filter (fun d => s.track_thresh ≤ d.conf)).getD (ud.getD j 0) default).conf,
          0, 1, s.frame_count + 1⟩ : Track)) ∈
        applyMatches (dets.filter (fun d => d.conf < s.track_thresh)) matchedLow
          (applyMatches (dets.filter (fun d => s.track_thresh ≤ d.conf)) matched s.tracks) ++
        (createTracks (dets.filter (fun d => s.track_thresh ≤ d.conf)) (s.frame_count + 1)
          ud s.next_id).1 :=
      List.mem_append_right _ hcm
    have hnotut2 : s.next_id + j ∉ ut2 := by
      intro hc
      have hcu : s.next_id + j ∈ ut := hut2sub.subset hc
      have hck : s.next_id + j ∈ dictKeys s.tracks := hutsub.subset hcu
      have := hInv.2 _ hck
      omega
    have h4 := (ageTracks_mem_notin ut2 _ (s.next_id + j) _ hnotut2).mpr h3
    rw [htr]
    refine (removeDead_mem _ _ _ _).mpr ⟨h4, ?_⟩
    exact_mod_cast hbuf

theorem update_new_tracks_witness :
    update (ByteTracker.init (1/2) 2 (7/10)) [⟨⟨0, 0, 4, 4⟩, 9/10⟩] =
      .ok ([(⟨0, 0, 4, 4⟩, 1)],
        ⟨1/2, 2, 7/10, [(1, ⟨⟨0, 0, 4, 4⟩, 9/10, 0, 1, 1⟩)], 2, 1⟩) ∧
    (⟨1/2, 2, 7/10, [(1, ⟨⟨0, 0, 4, 4⟩, 9/10, 0, 1, 1⟩)], 2, 1⟩ : TrackerState).next_id =
      (ByteTracker.init (1/2) 2 (7/10)).next_id + ([0] : List ℕ).length := by
  have h : update (ByteTracker.init (1/2) 2 (7/10)) [⟨⟨0, 0, 4, 4⟩, 9/10⟩] =
      .ok ([(⟨0, 0, 4, 4⟩, 1)],
        ⟨1/2, 2, 7/10, [(1, ⟨⟨0, 0, 4, 4⟩, 9/10, 0, 1, 1⟩)], 2, 1⟩) := by
    norm_num [update, ByteTracker.init, byteMatch, applyMatches, createTracks,
      ageTracks, removeDead, activeResults, dictKeys, secondPass, List.filterMap_cons]
  have hbm : byteMatch
      (([⟨⟨0, 0, 4, 4⟩, 9/10⟩] : List Det).filter
        (fun d => (ByteTracker.init (1/2) 2 (7/10)).track_thresh ≤ d.conf))
      (ByteTracker.init (1/2) 2 (7/10)).tracks
      (ByteTracker.init (1/2) 2 (7/10)).match_thresh = .ok ([], [0], []) := by
    norm_num [byteMatch, ByteTracker.init, dictKeys, List.range_succ]
  exact ⟨h, (update_new_tracks (ByteTracker.init (1/2) 2 (7/10)) [⟨⟨0, 0, 4, 4⟩, 9/10⟩]
    [(⟨0, 0, 4, 4⟩, 1)] ⟨1/2, 2, 7/10, [(1, ⟨⟨0, 0, 4, 4⟩, 9/10, 0, 1, 1⟩)], 2, 1⟩
    [] [0] [] (by simp) (by decide) (by decide) h hbm).2.2.2.1⟩

/-! ### Weight estimator (C6, C7) -/

theorem calculateWeightIndex_all_filtered (decay : ℕ → ℚ) (af df minA : ℚ)
    (boxes : List Box) (confs : List ℚ)
    (hb : ∀ b ∈ boxes, calculate_bbox_area b ≤ minA) :
    calculateWeightIndex decay af df minA boxes confs = (0, 0) := by
  simp only [calculateWeightIndex]
  have hnil : ((boxes.map calculate_bbox_area).zip confs).filter
      (fun p => p.1 > minA) = [] := by
    rw [List.filter_eq_nil_iff]
    intro p hp
    have hp1 : p.1 ∈ boxes.map calculate_bbox_area := by
      have := List.of_mem_zip (show (p.1, p.2) ∈ _ from hp)
      exact this.1
    obtain ⟨b, hbm, hba⟩ := List.mem_map.mp hp1
    have := hb b hbm
    simp only [gt_iff_lt, decide_eq_true_eq, not_lt]
    rw [← hba]
    exact this
  rw [hnil]
  simp

/-- C6 (amended): the estimator discards every observation whose area is `<=`
the minimum threshold (equality is discarded, not kept — see
`weight_area_equal_threshold_counterexample`); an identity with no surviving
observation gets weight index 0 and is excluded; and the claim's concrete
scenario holds under any threshold below the surviving areas: two identities
with surviving areas [100, 100] and [400, 400] (confidences 1.0),
`areaToWeightFactor = 0.15`, `densityFactor = 1.0` (threshold 50 here, since
the default threshold 100 would discard the 100-areas) give weight indices 15
and 60, aggregate mean 37.5, min 15, max 60, count 2, and a third identity
whose only observation is below the threshold is excluded. Holds for every
strictly positive decay sequence, hence for the code's `exp(-0.01 k)`. -/
theorem weight_index_estimator (decay : ℕ → ℚ) (hd : ∀ k, 0 < decay k) :
    (∀ (af df minA : ℚ) (boxes : List Box) (confs : List ℚ),
      (∀ b ∈ boxes, calculate_bbox_area b ≤ minA) →
      calculateWeightIndex decay af df minA boxes confs = (0, 0)) ∧
    estimate_weights decay (3/20) 1 50
      [(1, ⟨[⟨0, 0, 10, 10⟩, ⟨0, 0, 10, 10⟩], [1, 1]⟩),
       (2, ⟨[⟨0, 0, 20, 20⟩, ⟨0, 0, 20, 20⟩], [1, 1]⟩),
       (3, ⟨[⟨0, 0, 5, 5⟩], [1]⟩)] =
      ([⟨1, 15, 8/15, 2⟩, ⟨2, 60, 8/15, 2⟩], ⟨75/2, 15, 60, 2⟩) := by
  refine ⟨calculateWeightIndex_all_filtered decay, ?_⟩
  have hd0 := hd 0
  have hd1 := hd 1
  have hSS : decay 0 + decay 1 ≠ 0 := by positivity
  have h1 : calculateWeightIndex decay (3/20) 1 50 [⟨0, 0, 10, 10⟩, ⟨0, 0, 10, 10⟩] [1, 1] =
      (15, 8/15) := by
    simp only [calculateWeightIndex, List.map_cons, List.map_nil, List.zip_cons_cons,
      List.zip_nil_right, List.filter_cons, List.filter_nil, List.enum, calculate_bbox_area,
      List.length_cons, List.length_nil, List.sum_cons, List.sum_nil]
    norm_num
    field_simp
    ring
  have h2 : calculateWeightIndex decay (3/20) 1 50 [⟨0, 0, 20, 20⟩, ⟨0, 0, 20, 20⟩] [1, 1] =
      (60, 8/15) := by
    simp only [calculateWeightIndex, List.map_cons, List.map_nil, List.zip_cons_cons,
      List.zip_nil_right, List.filter_cons, List.filter_nil, List.enum, calculate_bbox_area,
      List.length_cons, List.length_nil, List.sum_cons, List.sum_nil]
    norm_num
    field_simp
    ring
  have h3 : calculateWeightIndex decay (3/20) 1 50 [⟨0, 0, 5, 5⟩] [1] = (0, 0) :=
    calculateWeightIndex_all_filtered decay (3/20) 1 50 _ _
      (by intro b hb; simp only [List.mem_singleton] at hb; subst hb;
          norm_num [calculate_bbox_area])
  simp only [estimate_weights, List.filterMap_cons, List.filterMap_nil, List.length_cons,
    List.length_nil, h1, h2, h3]
  norm_num

/-- C6, counterexample to the claim as stated: an observation whose box area
exactly equals the minimum threshold (area 100 at `MIN_BOX_AREA = 100`) is
discarded — the filter is strict (`areas > MIN_BOX_AREA`,
weight_estimator.py line 124) — so the identity gets weight index 0 instead of
the 100·0.15 = 15 the claim implies for a surviving observation. -/
theorem weight_area_equal_threshold_counterexample :
    (calculateWeightIndex (fun _ => 1) (3/20) 1 100 [⟨0, 0, 10, 10⟩] [1]).1 = 0 ∧
    (0 : ℚ) ≠ 15 := by
  constructor
  · norm_num [calculateWeightIndex, calculate_bbox_area]
  · norm_num

theorem weight_index_estimator_witness :
    (∀ k : ℕ, (0 : ℚ) < (fun _ => (1 : ℚ)) k) ∧
    estimate_weights (fun _ => (1 : ℚ)) (3/20) 1 50
      [(1, ⟨[⟨0, 0, 10, 10⟩, ⟨0, 0, 10, 10⟩], [1, 1]⟩),
       (2, ⟨[⟨0, 0, 20, 20⟩, ⟨0, 0, 20, 20⟩], [1, 1]⟩),
       (3, ⟨[⟨0, 0, 5, 5⟩], [1]⟩)] =
      ([⟨1, 15, 8/15, 2⟩, ⟨2, 60, 8/15, 2⟩], ⟨75/2, 15, 60, 2⟩) :=
  ⟨fun _ => one_pos, (weight_index_estimator (fun _ => 1) (fun _ => one_pos)).2⟩

/-- C7 (amended): the per-identity confidence is the average of
`min(1, totalObservationCount/30)` and the mean raw confidence over the
observations *surviving the area filter* (not over all original observations —
`confidences` is reassigned to the filtered array at weight_estimator.py line
129 before `np.mean` reads it; see `weight_confidence_counterexample`), and
every emitted record's `num_observations` equals the identity's total original
observation count. -/
theorem weight_confidence_records (decay : ℕ → ℚ) (af df minA : ℚ) :
    (∀ (boxes : List Box) (confs : List ℚ),
      survivingConfs minA boxes confs ≠ [] →
      (calculateWeightIndex decay af df minA boxes confs).2 =
        (min 1 ((boxes.length : ℚ) / 30) +
          (survivingConfs minA boxes confs).sum /
            ((survivingConfs minA boxes confs).length : ℚ)) / 2) ∧
    (∀ (tracks : List (ℕ × TrackData)) (rec : BirdWeight),
      rec ∈ (estimate_weights decay af df minA tracks).1 →
      ∃ p ∈ tracks, rec.track_id = p.1 ∧ rec.num_observations = p.2.boxes.length ∧
        rec.confidence =
          (calculateWeightIndex decay af df minA p.2.boxes p.2.confidences).2 ∧
        0 < rec.weight_index) := by
  constructor
  · intro boxes confs hsome
    have hlen : ¬ (((boxes.map calculate_bbox_area).zip confs).filter
        (fun p => p.1 > minA)).length = 0 := by
      intro hc
      apply hsome
      unfold survivingConfs
      rw [List.eq_nil_of_length_eq_zero hc]
      rfl
    simp only [calculateWeightIndex, survivingConfs]
    rw [if_neg hlen]
  · intro tracks rec hrec
    simp only [estimate_weights, List.mem_filterMap] at hrec
    obtain ⟨p, hp, hpe⟩ := hrec
    by_cases hlen : p.2.boxes.length = 0
    · rw [if_pos hlen] at hpe
      exact absurd hpe (by simp)
    · rw [if_neg hlen] at hpe
      by_cases hpos : (calculateWeightIndex decay af df minA p.2.boxes p.2.confidences).1 > 0
      · rw [if_pos hpos] at hpe
        obtain hre := Option.some.inj hpe
        refine ⟨p, hp, ?_, ?_, ?_, ?_⟩ <;> rw [← hre]
        exact hpos
      · rw [if_neg hpos] at hpe
        exact absurd hpe (by simp)

/-- C7, counterexample to the claim as stated: an identity with observations of
areas 400 and 25 (threshold 100) and raw confidences 1.0 and 0.0 gets
confidence `(min(1, 2/30) + 1)/2 = 8/15` — the mean is taken over the single
surviving confidence 1.0 — whereas the claim's mean over all original
observations would give `(1/15 + 1/2)/2 = 17/60`. -/
theorem weight_confidence_counterexample :
    (calculateWeightIndex (fun _ => (1 : ℚ)) (3/20) 1 100
      [⟨0, 0, 20, 20⟩, ⟨0, 0, 5, 5⟩] [1, 0]).2 = 8/15 ∧
    (8/15 : ℚ) ≠ 17/60 := by
  constructor
  · norm_num [calculateWeightIndex, calculate_bbox_area, List.filter_cons, min_def]
  · norm_num

theorem weight_confidence_records_witness :
    survivingConfs 100 [⟨0, 0, 20, 20⟩] [1] ≠ [] ∧
    (calculateWeightIndex (fun _ => (1 : ℚ)) (3/20) 1 100 [⟨0, 0, 20, 20⟩] [1]).2 =
      (min 1 ((([⟨0, 0, 20, 20⟩] : List Box).length : ℚ) / 30) +
        (survivingConfs 100 [⟨0, 0, 20, 20⟩] [1]).sum /
          ((survivingConfs 100 [⟨0, 0, 20, 20⟩] [1]).length : ℚ)) / 2 := by
  have hne : survivingConfs 100 [⟨0, 0, 20, 20⟩] [(1 : ℚ)] ≠ [] := by
    norm_num [survivingConfs, calculate_bbox_area, List.filter_cons]
  exact ⟨hne, (weight_confidence_records (fun _ => 1) (3/20) 1 100).1
    [⟨0, 0, 20, 20⟩] [1] hne⟩

end BirdCount
